import Mathlib

/-!
Verification of the SubVision repository's deterministic core: the SRT
subtitle codec (`parseSRT` in `src/App.tsx`, `convertToSRT` in
`src/services/geminiService.ts`), the audio range extractor and WAV encoder
(`extractAudioForTranscription`, `audioBufferToWav` in `src/App.tsx`), and
the translation response pass-through (`translateSubtitles` in
`src/services/geminiService.ts`).

Modelling conventions:
* JavaScript strings are modelled as `List Char`.
* JavaScript numbers are rationals (`ℚ`); where `NaN` can arise we use
  `Option ℚ` with `none` standing for `NaN` (written `JSNum`).
* A thrown JavaScript exception is modelled by `Except Unit` (decode paths)
  or by `Option` (audio paths); `Unit` carries no payload because the callers
  in the source only catch-and-discard.
-/

namespace SubVision

/-- The character class of the JavaScript regular-expression `\s` (and of
`String.prototype.trim`), restricted to the code points that actually occur
in this development plus the standard Unicode space separators.  Listed
explicitly so that the block-splitting regex `\n\s*\n` and the
speaker-stripping regex `^[^:]+:\s*` can be evaluated. -/
def isJsWs (c : Char) : Bool :=
  c = ' ' || c = '\t' || c = '\n' || c = '\r' || c = '\x0b' || c = '\x0c' ||
  c = ' ' || c = ' ' ||
  (' ' ≤ c && c ≤ ' ') ||
  c = ' ' || c = ' ' || c = ' ' || c = ' ' ||
  c = '　' || c = '﻿'

/-- JavaScript `String.prototype.trim`: remove leading and trailing
whitespace. -/
def jsTrim (cs : List Char) : List Char :=
  ((cs.dropWhile isJsWs).reverse.dropWhile isJsWs).reverse

/-- Cons a character onto the first piece of a split result (helper for the
character-by-character splitters below). -/
def consHead (c : Char) : List (List Char) → List (List Char)
  | [] => [[c]]
  | p :: ps => (c :: p) :: ps

/-- Fuel-driven worker for `splitOnL`. -/
def splitOnLAux (sep : List Char) : Nat → List Char → List (List Char)
  | 0, cs => [cs]
  | _ + 1, [] => [[]]
  | fuel + 1, c :: rest =>
    if sep.isPrefixOf (c :: rest) then
      [] :: splitOnLAux sep fuel ((c :: rest).drop sep.length)
    else
      consHead c (splitOnLAux sep fuel rest)

/-- JavaScript `String.prototype.split(sep)` for a non-empty literal
separator `sep`: scan left to right, cutting at each occurrence. -/
def splitOnL (sep cs : List Char) : List (List Char) :=
  splitOnLAux sep cs.length cs

/-- Greedy tail of the separator regex `\n\s*\n` after its first `\n` has
been consumed: scan the whitespace run at the head of the input and return
the number of characters consumed up to and including the last `\n` inside
that run (`none` when the run contains no `\n`, i.e. the regex does not
match here). -/
def sepTail : List Char → Option Nat
  | [] => none
  | c :: cs =>
    if c = '\n' then
      match sepTail cs with
      | some k => some (k + 1)
      | none => some 1
    else if isJsWs c then
      match sepTail cs with
      | some k => some (k + 1)
      | none => none
    else none

/-- Fuel-driven worker for `splitBlocks`. -/
def splitBlocksAux : Nat → List Char → List (List Char)
  | 0, cs => [cs]
  | _ + 1, [] => [[]]
  | fuel + 1, c :: rest =>
    if c = '\n' then
      match sepTail rest with
      | some k => [] :: splitBlocksAux fuel (rest.drop k)
      | none => consHead c (splitBlocksAux fuel rest)
    else consHead c (splitBlocksAux fuel rest)

/-- JavaScript `content.split(/\n\s*\n/)`: split into blocks at every
maximal (greedy) occurrence of a newline, optional whitespace, newline. -/
def splitBlocks (cs : List Char) : List (List Char) :=
  splitBlocksAux cs.length cs

/-- Decimal digit test (`[0-9]`). -/
def isDig (c : Char) : Bool := '0' ≤ c && c ≤ '9'

/-- Numeric value of a decimal digit character. -/
def digVal (c : Char) : ℕ := c.toNat - '0'.toNat

/-- Value of a decimal digit string, most significant digit first
(computed in `ℕ` and cast to `ℚ` where needed, so that it evaluates). -/
def digitsValN (ds : List Char) : ℕ :=
  ds.foldl (fun a c => 10 * a + digVal c) 0

/-- Unsigned decimal numeral parser used by the model of `Number(str)`:
accepts `D+`, `D+.D*` and `.D+`; anything else is `NaN` (`none`). -/
def parseDec (cs : List Char) : Option ℚ :=
  let intDs := cs.takeWhile isDig
  let rest := cs.dropWhile isDig
  match rest with
  | [] => if intDs = [] then none else some (digitsValN intDs : ℚ)
  | '.' :: frac =>
    let fracDs := frac.takeWhile isDig
    let rest2 := frac.dropWhile isDig
    if rest2 = [] then
      if intDs = [] && fracDs = [] then none
      else some ((digitsValN intDs : ℚ) + (digitsValN fracDs : ℚ) / 10 ^ fracDs.length)
    else none
  | _ => none

/-- Model of JavaScript `Number(str)` on the decimal fragment of its
grammar: trim whitespace, empty means `0`, optional sign, plain decimal
numeral.  Exponent, hexadecimal and `Infinity` forms (which never occur in
this development) are not modelled and yield `NaN` (`none`). -/
def jsNumber (cs : List Char) : Option ℚ :=
  let t := jsTrim cs
  if t = [] then some 0
  else
    match t with
    | '+' :: r => parseDec r
    | '-' :: r => (parseDec r).map (fun q => -q)
    | r => parseDec r

/-- Model of JavaScript `parseInt(str)` (radix auto-detect on a `0x` prefix
is not modelled; all inputs in this development are plain decimal): skip
leading whitespace, optional sign, then the maximal run of leading decimal
digits; no digits means `NaN` (`none`); trailing characters are ignored. -/
def parseIntJs (cs : List Char) : Option ℚ :=
  let t := cs.dropWhile isJsWs
  let sign : ℤ := if t.headD 'x' = '-' then -1 else 1
  let u := if t.headD 'x' = '-' || t.headD 'x' = '+' then t.drop 1 else t
  let ds := u.takeWhile isDig
  if ds = [] then none else some ((sign * digitsValN ds : ℤ) : ℚ)

/-- A JavaScript number that may be `NaN` (`none` = `NaN`). -/
abbrev JSNum := Option ℚ

/-- NaN-propagating addition. -/
def nAdd (a b : JSNum) : JSNum :=
  match a, b with
  | some x, some y => some (x + y)
  | _, _ => none

/-- NaN-propagating multiplication (no infinities arise in this model). -/
def nMul (a b : JSNum) : JSNum :=
  match a, b with
  | some x, some y => some (x * y)
  | _, _ => none

/-- NaN-propagating division by a non-zero constant. -/
def nDivC (a : JSNum) (c : ℚ) : JSNum :=
  match a with
  | some x => some (x / c)
  | none => none

/-- `Number(v)` where `v` may be `undefined` (`Number(undefined)` is
`NaN`). -/
def jsNumberU : Option (List Char) → JSNum
  | some cs => jsNumber cs
  | none => none

/-- `parseInt(v)` where `v` may be `undefined` (`parseInt(undefined)` is
`NaN`). -/
def parseIntU : Option (List Char) → JSNum
  | some cs => parseIntJs cs
  | none => none

/-- The `timeToSec` closure of `parseSRT` (src/App.tsx lines 112-116):
split on a comma into `[hms, ms]`, split `hms` on colons into `[h, m, s]`
(missing pieces are `undefined`, hence `NaN` after conversion), and compute
`h * 3600 + m * 60 + s + parseInt(ms) / 1000`. -/
def timeToSec (cs : List Char) : JSNum :=
  let parts := splitOnL [','] cs
  let hms := parts.getD 0 []
  let ms := parts.get? 1
  let hmsParts := splitOnL [':'] hms
  let h := jsNumberU (hmsParts.get? 0)
  let m := jsNumberU (hmsParts.get? 1)
  let s := jsNumberU (hmsParts.get? 2)
  nAdd (nAdd (nMul h (some 3600)) (nMul m (some 60)))
    (nAdd s (nDivC (parseIntU ms) 1000))

/-- The `Subtitle` record of `src/types.ts`.  `startTime`/`endTime` are
JavaScript numbers in seconds (possibly `NaN`), `speaker` is the optional
speaker label, `id` an opaque string. -/
structure Subtitle where
  id : List Char
  startTime : JSNum
  endTime : JSNum
  speaker : Option (List Char)
  text : List Char
deriving DecidableEq, Repr

/-- Join a list of strings with a single-character separator
(`Array.prototype.join`). -/
def joinWith (c : Char) : List (List Char) → List Char
  | [] => []
  | [p] => p
  | p :: ps => p ++ c :: joinWith c ps

/-- The speaker-prefix regex `^([^:]+):` of `parseSRT` (src/App.tsx line
119): the captured group is the maximal run of non-colon characters at the
start, provided it is non-empty and followed by a colon. -/
def speakerOf (cs : List Char) : Option (List Char) :=
  let pre := cs.takeWhile (fun c => c != ':')
  if pre = [] then none
  else if pre.length = cs.length then none
  else some pre

/-- The replacement `replace(/^[^:]+:\s*/, '')` of `parseSRT` (src/App.tsx
line 121), applied when the speaker regex matched: drop everything through
the first colon, then drop any immediately-following whitespace. -/
def stripSpkr (cs : List Char) : List Char :=
  ((cs.dropWhile (fun c => c != ':')).drop 1).dropWhile isJsWs

/-- Decimal digit characters of a natural number, fuel-driven
(`natRepr` wraps it with sufficient fuel). -/
def natReprAux : Nat → Nat → List Char
  | 0, _ => []
  | fuel + 1, n =>
    if n < 10 then [Char.ofNat ('0'.toNat + n)]
    else natReprAux fuel (n / 10) ++ [Char.ofNat ('0'.toNat + n % 10)]

/-- Decimal representation of a natural number (JavaScript
`Number.prototype.toString` on a non-negative integer). -/
def natRepr (n : Nat) : List Char := natReprAux (n + 1) n

/-- The identifier `srt-${Date.now()}-${i}` of `parseSRT` (src/App.tsx line
124); `Date.now()` is passed in as the parameter `now`. -/
def mkSrtId (now i : ℕ) : List Char :=
  ("srt-".data) ++ natRepr now ++ ("-".data) ++ natRepr i

/-- One iteration of the block map of `parseSRT` (src/App.tsx lines
106-130).  `ok none` models the `return null` for blocks with fewer than 3
lines; `error ()` models the `TypeError` thrown by `timeToSec(undefined)`
when the timecode line contains no " --> " separator (the only statement in
the block body that can throw). -/
def decodeBlock (now i : ℕ) (block : List Char) : Except Unit (Option Subtitle) :=
  let lines := splitOnL ['\n'] block
  if lines.length < 3 then .ok none
  else
    let timeLine := lines.getD 1 []
    let parts := splitOnL (" --> ".data) timeLine
    let startStr := parts.getD 0 []
    match parts.get? 1 with
    | none => .error ()
    | some endStr =>
      let textWithSpeaker := joinWith ' ' (lines.drop 2)
      let speaker := speakerOf textWithSpeaker
      let text :=
        match speaker with
        | some _ => stripSpkr textWithSpeaker
        | none => textWithSpeaker
      .ok (some
        { id := mkSrtId now i
          startTime := timeToSec startStr
          endTime := timeToSec endStr
          speaker := speaker
          text := text })

/-- The indexed block map of `parseSRT` with JavaScript exception
propagation: the first block whose decode throws aborts the whole map. -/
def parseBlocks (now : ℕ) : ℕ → List (List Char) → Except Unit (List (Option Subtitle))
  | _, [] => .ok []
  | i, b :: bs =>
    match decodeBlock now i b with
    | .error e => .error e
    | .ok s =>
      match parseBlocks now (i + 1) bs with
      | .error e => .error e
      | .ok rest => .ok (s :: rest)

/-- `parseSRT` (src/App.tsx lines 100-137): trim the content, split it into
blocks at blank-line separators, decode each block in order (short blocks
yield `null` and are filtered out afterwards), and fail as a whole on the
first thrown exception.  `error ()` is the catch branch that reports
"Failed to parse SRT file" and leaves the subtitle list unchanged; `ok l`
is the branch that stores `l` via `setSubtitles`. -/
def parseSRT (now : ℕ) (content : List Char) : Except Unit (List Subtitle) :=
  match parseBlocks now 0 (splitBlocks (jsTrim content)) with
  | .error e => .error e
  | .ok l => .ok (l.filterMap id)

/-! ### Encoder: `convertToSRT` (src/services/geminiService.ts lines 234-248) -/

/-- JavaScript truncation toward zero (`ToIntegerOrInfinity` on a finite
number), as performed by `Date.prototype.setSeconds` on its argument and by
the `%` remainder operator. -/
def jsTrunc (q : ℚ) : ℤ := if q < 0 then -⌊-q⌋ else ⌊q⌋

/-- Decimal representation of an integer (JavaScript
`Number.prototype.toString` on an integer value). -/
def intRepr (i : ℤ) : List Char :=
  if i < 0 then '-' :: natRepr i.natAbs else natRepr i.toNat

/-- JavaScript `String.prototype.padStart(k, c)`. -/
def padStart (k : ℕ) (c : Char) (cs : List Char) : List Char :=
  List.replicate (k - cs.length) c ++ cs

/-- Two-digit zero-padded field of `Date.prototype.toISOString`. -/
def pad2 (n : ℕ) : List Char := padStart 2 '0' (natRepr n)

/-- The `formatTime` closure of `convertToSRT` (src/services/geminiService.ts
lines 238-243): build a `Date` at epoch, `setSeconds(seconds)` (which
truncates the argument toward zero; a `NaN` or out-of-range time value makes
the date invalid so that `toISOString` throws a `RangeError`, modelled by
`error ()`), take `HH:MM:SS` from the ISO string (fields of the time value
reduced modulo one day, non-negative), and append a comma and
`Math.floor((seconds % 1) * 1000)` rendered in decimal and zero-padded to 3
characters. -/
def formatTime (t : JSNum) : Except Unit (List Char) :=
  match t with
  | none => .error ()
  | some q =>
    let secI : ℤ := jsTrunc q
    if 8640000000000000 < (secI * 1000).natAbs then .error ()
    else
      let tot : ℤ := secI.emod 86400
      let hh : ℕ := (tot / 3600).toNat
      let mm : ℕ := (tot % 3600 / 60).toNat
      let ss : ℕ := (tot % 60).toNat
      let msN : ℤ := ⌊(q - (jsTrunc q : ℚ)) * 1000⌋
      .ok (pad2 hh ++ ':' :: pad2 mm ++ ':' :: pad2 ss ++
        ',' :: padStart 3 '0' (intRepr msN))

/-- Comparator order `a.startTime - b.startTime <= 0` used by
`convertToSRT`'s sort.  JavaScript's sort order is unspecified when the
comparator returns `NaN`; inputs in this development always carry real
times, for which this is the numeric order. -/
def jsLeStart (a b : Subtitle) : Bool :=
  match a.startTime, b.startTime with
  | some x, some y => x ≤ y
  | _, _ => true

/-- Stable insertion of a subtitle into a list sorted by `startTime`
(helper for `sortByStart`). -/
def insertByStart (a : Subtitle) : List Subtitle → List Subtitle
  | [] => [a]
  | b :: bs =>
    if jsLeStart a b then a :: b :: bs else b :: insertByStart a bs

/-- Model of `[...subtitles].sort((a, b) => a.startTime - b.startTime)`
(src/services/geminiService.ts line 235): a stable sort by ascending
`startTime` of a copy of the collection.  Implemented as stable insertion
sort, which agrees with the (specified-stable) `Array.prototype.sort`. -/
def sortByStart : List Subtitle → List Subtitle
  | [] => []
  | a :: as_ => insertByStart a (sortByStart as_)

/-- The speaker label prefix `sub.speaker ? sub.speaker + ': ' : ''`
(src/services/geminiService.ts line 245).  Note JavaScript truthiness: an
empty-string speaker is falsy and yields no label. -/
def speakerLabel : Option (List Char) → List Char
  | none => []
  | some sp => if sp = [] then [] else sp ++ (": ".data)

/-- One block of `convertToSRT`'s output for the subtitle at (0-based) sort
position `i`: sequence number, timecode line, text line, and a trailing
newline (the template ends with a newline before the blocks are joined). -/
def srtBlock (i : ℕ) (sub : Subtitle) : Except Unit (List Char) :=
  match formatTime sub.startTime, formatTime sub.endTime with
  | .ok ts, .ok te =>
    .ok (natRepr (i + 1) ++ '\n' :: ts ++ (" --> ".data) ++ te ++
      '\n' :: speakerLabel sub.speaker ++ sub.text ++ ['\n'])
  | .error e, _ => .error e
  | _, .error e => .error e

/-- The indexed map of `convertToSRT` over the sorted collection, with
exception propagation from `formatTime`. -/
def srtBlocks : ℕ → List Subtitle → Except Unit (List (List Char))
  | _, [] => .ok []
  | i, sub :: subs =>
    match srtBlock i sub with
    | .error e => .error e
    | .ok b =>
      match srtBlocks (i + 1) subs with
      | .error e => .error e
      | .ok bs => .ok (b :: bs)

/-- `convertToSRT` (src/services/geminiService.ts lines 234-248): sort a
copy of the collection by ascending `startTime`, render each caption as a
numbered SRT block, and join the blocks with a newline (each block already
ends in one, so blocks are separated by a blank line). -/
def convertToSRT (subtitles : List Subtitle) : Except Unit (List Char) :=
  match srtBlocks 0 (sortByStart subtitles) with
  | .error e => .error e
  | .ok bs => .ok (joinWith '\n' bs)

/-! ### Audio range extractor (src/App.tsx lines 139-165) and WAV encoder
(src/App.tsx lines 167-197) -/

/-- A decoded audio buffer as used by `extractAudioForTranscription`:
sample rate in Hz and the channel-0 sample data (`getChannelData(0)`); the
Web Audio `duration` attribute is `length / sampleRate`. -/
structure AudioBuffer where
  sampleRate : ℚ
  data : List ℚ
deriving DecidableEq, Repr

/-- Web Audio `AudioBuffer.duration = length / sampleRate`. -/
def AudioBuffer.duration (b : AudioBuffer) : ℚ := b.data.length / b.sampleRate

/-- `TypedArray.prototype.subarray(b, e)`: negative indices count from the
end, both indices are clamped to `[0, length]`, and an inverted range is
empty. -/
def jsSubarray (l : List ℚ) (b e : ℤ) : List ℚ :=
  let n : ℤ := l.length
  let bi : ℤ := if b < 0 then max (n + b) 0 else min b n
  let ei : ℤ := if e < 0 then max (n + e) 0 else min e n
  (l.drop bi.toNat).take (ei - bi).toNat

/-- `TypedArray.prototype.set(src)` at offset 0: overwrite the prefix of
`dst` with `src`; a source longer than the destination throws a
`RangeError` (`none`). -/
def typedSet (dst src : List ℚ) : Option (List ℚ) :=
  if src.length ≤ dst.length then some (src ++ dst.drop src.length) else none

/-- The buffer-slicing portion of `extractAudioForTranscription`
(src/App.tsx lines 146-153): clamp the end of the window to the source
duration, convert the window to sample indices with `Math.floor`, allocate
a single-channel zero-filled buffer of `max(0, endSample - startSample)`
frames with `createBuffer`, and copy
`channelData.subarray(startSample, endSample)` into it.  `none` is a
thrown exception: `createBuffer` throws `NotSupportedError` when the
requested length is zero or the sample rate lies outside the
implementation's nominal range — the Web Audio spec requires every
implementation's range to include [8000, 96000] Hz, and the model takes
that guaranteed minimum, the theorems only invoking rates inside it — and
`set` throws `RangeError` when its source is longer than the
destination. -/
def sliceBuffer (buf : AudioBuffer) (tStart tEnd : ℚ) : Option AudioBuffer :=
  let rate := buf.sampleRate
  let startSample : ℤ := ⌊tStart * rate⌋
  let endSample : ℤ := ⌊(min tEnd buf.duration) * rate⌋
  let frameCount : ℕ := (max 0 (endSample - startSample)).toNat
  if frameCount = 0 ∨ rate < 8000 ∨ 96000 < rate then none
  else
    let sliced : List ℚ := List.replicate frameCount 0
    (typedSet sliced (jsSubarray buf.data startSample endSample)).map
      (fun d => { sampleRate := rate, data := d })

/-- Little-endian bytes of `DataView.setUint16` (value wrapped mod 2^16). -/
def u16le (v : ℕ) : List ℕ := [v % 256, v / 256 % 256]

/-- Little-endian bytes of `DataView.setUint32` (value wrapped mod 2^32). -/
def u32le (v : ℕ) : List ℕ :=
  [v % 256, v / 256 % 256, v / 65536 % 256, v / 16777216 % 256]

/-- Little-endian bytes of `DataView.setInt16`: truncate the (here already
integral) value modulo 2^16 and store the two's-complement pattern. -/
def i16le (i : ℤ) : List ℕ :=
  let u : ℕ := (i.emod 65536).toNat
  [u % 256, u / 256]

/-- `ToUint32` applied to a rational sample rate (truncate toward zero,
wrap modulo 2^32). -/
def qToUint32 (q : ℚ) : ℕ := ((jsTrunc q).emod 4294967296).toNat

/-- The `writeString` helper of `audioBufferToWav` (src/App.tsx lines
172-176): one byte per character via `charCodeAt` (ASCII here). -/
def strBytes (s : List Char) : List ℕ := s.map (fun c => c.toNat % 256)

/-- The per-sample conversion of `audioBufferToWav` (src/App.tsx lines
192-194): clamp to `[-1, 1]`, scale negatives by 0x8000 and non-negatives
by 0x7FFF, and store as a little-endian signed 16-bit integer. -/
def sampleBytes (x : ℚ) : List ℕ :=
  let s := max (-1) (min 1 x)
  i16le (jsTrunc (if s < 0 then s * 32768 else s * 32767))

/-- `audioBufferToWav` (src/App.tsx lines 167-197): the 44-byte RIFF/WAVE
header written field by field at consecutive offsets, followed by the
16-bit PCM samples.  The byte list reproduces the final contents of the
`Uint8Array` of length `buffer.length * 2 + 44`. -/
def audioBufferToWav (buf : AudioBuffer) : List ℕ :=
  let n := buf.data.length
  strBytes ("RIFF".data) ++
  u32le (32 + n * 2) ++
  strBytes ("WAVE".data) ++
  strBytes ("fmt ".data) ++
  u32le 16 ++
  u16le 1 ++
  u16le 1 ++
  u32le (qToUint32 buf.sampleRate) ++
  u32le (qToUint32 (buf.sampleRate * 2)) ++
  u16le 2 ++
  u16le 16 ++
  strBytes ("data".data) ++
  u32le (n * 2) ++
  buf.data.flatMap sampleBytes

/-- Unsigned 16-bit little-endian field of a byte stream at offset `off`. -/
def read16 (w : List ℕ) (off : ℕ) : ℕ := w.getD off 0 + 256 * w.getD (off + 1) 0

/-- Unsigned 32-bit little-endian field of a byte stream at offset `off`. -/
def read32 (w : List ℕ) (off : ℕ) : ℕ :=
  w.getD off 0 + 256 * w.getD (off + 1) 0 + 65536 * w.getD (off + 2) 0 +
    16777216 * w.getD (off + 3) 0

/-- Signed 16-bit little-endian field of a byte stream at offset `off`. -/
def readInt16 (w : List ℕ) (off : ℕ) : ℤ :=
  let u := read16 w off
  if u < 32768 then (u : ℤ) else (u : ℤ) - 65536

/-! ### Translation response pass-through (src/services/geminiService.ts
lines 107-171) -/

/-- `translateSubtitles` with the generative-AI collaborator modelled as an
injected response.  `resp = none` models a missing/blank `response.text`, a
`JSON.parse` throw, or a non-array parse result (all of which throw, caught
by the caller); `resp = some l` models a successfully parsed JSON array of
records of the declared response schema.  The function performs no mapping
of its own: it returns the parsed array unchanged. -/
def translateSubtitles (subtitles : List Subtitle) (resp : Option (List Subtitle)) :
    Except Unit (List Subtitle) :=
  match resp with
  | none => .error ()
  | some l => .ok l

/-! ### Specification-side definitions used to state the theorems -/

/-- The only exception site of `parseSRT`'s block map: a block with at least
3 lines whose timecode line contains no " --> " separator (so that `endStr`
is `undefined` and `timeToSec(undefined)` throws). -/
def BlockThrows (block : List Char) : Prop :=
  3 ≤ (splitOnL ['\n'] block).length ∧
    (splitOnL (" --> ".data) ((splitOnL ['\n'] block).getD 1 [])).length < 2

instance (block : List Char) : Decidable (BlockThrows block) := by
  unfold BlockThrows; infer_instance

/-- Encoder-side well-formedness of a caption, under which the SRT
round-trip is lossless (up to millisecond quantisation of the times): real
times in `[0, 86400)` with `startTime <= endTime`; non-empty text free of
newlines that neither starts nor ends with whitespace; a speaker, when
present, that is non-empty and free of colons and newlines; and text free
of colons when no speaker is present. -/
def goodSub (c : Subtitle) : Bool :=
  c.startTime.isSome && c.endTime.isSome &&
  decide (0 ≤ c.startTime.getD 0) && decide (c.startTime.getD 0 ≤ c.endTime.getD 0) &&
  decide (c.endTime.getD 0 < 86400) &&
  decide (c.text ≠ []) && decide ('\n' ∉ c.text) &&
  !isJsWs (c.text.headD 'x') && !isJsWs (c.text.getLastD 'x') &&
  (match c.speaker with
   | some sp => decide (sp ≠ []) && decide (':' ∉ sp) && decide ('\n' ∉ sp)
   | none => decide (':' ∉ c.text))

/-- Millisecond quantisation: the value reproduced by decoding an encoded
time. -/
def msQuant (q : ℚ) : ℚ := (⌊q * 1000⌋ : ℚ) / 1000

/-- The timecode string `HH:MM:SS,mmm` for `n` whole seconds (`n < 86400`)
and `m` milliseconds. -/
def tcN (n m : ℕ) : List Char :=
  pad2 (n / 3600) ++ ':' :: pad2 (n % 3600 / 60) ++ ':' :: pad2 (n % 60) ++
    ',' :: padStart 3 '0' (natRepr m)

/-- The timecode string produced by `formatTime` for a time `q` with
`0 ≤ q < 86400`. -/
def tcQ (q : ℚ) : List Char :=
  tcN (⌊q⌋.toNat) (⌊(q - (⌊q⌋ : ℚ)) * 1000⌋).toNat

/-- The text line of a caption's SRT block. -/
def lineOf (sub : Subtitle) : List Char := speakerLabel sub.speaker ++ sub.text

/-- A caption's SRT block at sort position `i`, without the trailing
newline. -/
def coreOf (i : ℕ) (sub : Subtitle) : List Char :=
  natRepr (i + 1) ++ '\n' ::
    ((tcQ (sub.startTime.getD 0) ++ (' ' :: (['-', '-', '>'] ++ [' '])) ++
        tcQ (sub.endTime.getD 0)) ++
      '\n' :: lineOf sub)

/-- The newline-free blocks of an encoded collection, starting at sort
position `i`. -/
def coreListOf : ℕ → List Subtitle → List (List Char)
  | _, [] => []
  | i, s :: ss => coreOf i s :: coreListOf (i + 1) ss

/-- The caption obtained by decoding the encoding of `sub` (block position
`i`): a fresh id, millisecond-quantised times, same speaker and text. -/
def decOf (now i : ℕ) (sub : Subtitle) : Subtitle :=
  { id := mkSrtId now i
    startTime := sub.startTime.map msQuant
    endTime := sub.endTime.map msQuant
    speaker := sub.speaker
    text := sub.text }

/-- The decoded captions of an encoded collection, starting at block
position `i`. -/
def decListOf (now : ℕ) : ℕ → List Subtitle → List Subtitle
  | _, [] => []
  | i, s :: ss => decOf now i s :: decListOf now (i + 1) ss

/-- Join a non-empty list of pieces with blank-line (two-newline)
separators. -/
def interTwo : List (List Char) → List Char
  | [] => []
  | [p] => p
  | p :: ps => p ++ '\n' :: '\n' :: interTwo ps

/-- Cons a piece onto the first element of a split result (specification
side of the block-splitting lemmas). -/
def prepend (p : List Char) : List (List Char) → List (List Char)
  | [] => [p]
  | q :: qs => (p ++ q) :: qs

/-- Safety of a piece with respect to the separator regex `\n\s*\n`: after
any newline of `p`, the whitespace run that follows (continuing into
`rest`) contains no further newline, so no separator match begins inside
`p`. -/
def SafeNl (p rest : List Char) : Prop :=
  ∀ a b, p = a ++ '\n' :: b → '\n' ∉ (b ++ rest).takeWhile isJsWs

/-- A piece that survives blank-line splitting intact when joined with
blank-line separators: non-empty, starting with a non-whitespace character,
and after each internal newline the following whitespace run contains no
newline and ends before the piece does. -/
def NicePiece (p : List Char) : Prop :=
  p ≠ [] ∧ isJsWs (p.headD 'x') = false ∧
    ∀ a b, p = a ++ '\n' :: b →
      ('\n' ∉ b.takeWhile isJsWs ∧ ∃ c ∈ b, isJsWs c = false)

/-- Field-preservation relation between an input caption and a translated
caption: everything except `text` is echoed back unchanged. -/
def EchoFields (a b : Subtitle) : Prop :=
  b.id = a.id ∧ b.startTime = a.startTime ∧ b.endTime = a.endTime ∧
    b.speaker = a.speaker

/-- Concrete caption used in witnesses: a spoken line with a speaker. -/
def witSub1 : Subtitle :=
  { id := "a".data, startTime := some 0, endTime := some 1,
    speaker := some ("Bob".data), text := "Hi there".data }

/-- Concrete caption used in witnesses: a speakerless line. -/
def witSub2 : Subtitle :=
  { id := "b".data, startTime := some (5 / 2 : ℚ), endTime := some 3,
    speaker := none, text := "Fine".data }

/-- Concrete caption whose text starts with a colon-terminated word but
which carries no speaker; it satisfies the literal precondition of the
round-trip claim yet fails to survive the round trip. -/
def ceSub : Subtitle :=
  { id := "a".data, startTime := some 0, endTime := some 1,
    speaker := none, text := "a: b".data }

/-- A well-formed SRT block with index line `1`, the canonical timecode
line `00:00:00,000 --> 00:00:01,000`, and the given text payload. -/
def blockWith (payload : List Char) : List Char :=
  "1".data ++ '\n' ::
    (("00:00:00,000".data ++ (' ' :: (['-', '-', '>'] ++ [' '])) ++
        "00:00:01,000".data) ++ '\n' :: payload)

/-- The part of the source channel data actually copied by the slice: the
clamped `subarray(startSample, endSample)` window, for non-negative sample
indices. -/
def srcSlice (data : List ℚ) (s e : ℤ) : List ℚ :=
  (data.drop (min s (data.length : ℤ)).toNat).take
    ((min e (data.length : ℤ) - min s (data.length : ℤ)).toNat)

/-- The 44-byte header part of `audioBufferToWav` as one list, used to
locate the sample bytes that follow it. -/
def wavHeader (buf : AudioBuffer) : List ℕ :=
  strBytes ("RIFF".data) ++
  u32le (32 + buf.data.length * 2) ++
  strBytes ("WAVE".data) ++
  strBytes ("fmt ".data) ++
  u32le 16 ++
  u16le 1 ++
  u16le 1 ++
  u32le (qToUint32 buf.sampleRate) ++
  u32le (qToUint32 (buf.sampleRate * 2)) ++
  u16le 2 ++
  u16le 16 ++
  strBytes ("data".data) ++
  u32le (buf.data.length * 2)

/-- Concrete caption used in the translation pass-through theorems. -/
def witA : Subtitle :=
  { id := "x".data, startTime := some 0, endTime := some 1,
    speaker := none, text := "hola".data }

/-- A response caption echoing every field of `witA` except `text`. -/
def witA2 : Subtitle :=
  { id := "x".data, startTime := some 0, endTime := some 1,
    speaker := none, text := "hello".data }

/-- A response caption sharing no field with `witA`: the collaborator is
free to return it, and `translateSubtitles` passes it through unchanged. -/
def witB : Subtitle :=
  { id := "y".data, startTime := some 2, endTime := some 3,
    speaker := some ("s".data), text := "other".data }

/-! ### Lemmas about the splitters -/

theorem consHead_prepend (c : Char) (p : List Char) (l : List (List Char)) :
    consHead c (prepend p l) = prepend (c :: p) l := by
  cases l <;> rfl

theorem prepend_nil_ne (p : List Char) (l : List (List Char)) (h : l ≠ []) :
    prepend p l = (p ++ l.headD []) :: l.tail := by
  cases l with
  | nil => exact absurd rfl h
  | cons q qs => rfl

theorem splitOnLAux_step (sep : List Char) (hs : sep ≠ []) :
    ∀ f cs, cs.length ≤ f → splitOnLAux sep (f + 1) cs = splitOnLAux sep f cs := by
  have h1 : 1 ≤ sep.length := by
    cases sep with
    | nil => exact absurd rfl hs
    | cons _ _ => simp
  intro f
  induction f with
  | zero =>
    intro cs h
    have : cs = [] := List.eq_nil_of_length_eq_zero (Nat.le_zero.mp h)
    subst this; rfl
  | succ f ih =>
    intro cs h
    cases cs with
    | nil => rfl
    | cons c rest =>
      have hr : rest.length ≤ f := by
        simp only [List.length_cons] at h; omega
      by_cases hp : sep.isPrefixOf (c :: rest)
      · have hd : ((c :: rest).drop sep.length).length ≤ f := by
          simp only [List.length_drop, List.length_cons]
          omega
        show (if sep.isPrefixOf (c :: rest) = true then _ else _) =
          (if sep.isPrefixOf (c :: rest) = true then _ else _)
        rw [if_pos hp, if_pos hp, ih _ hd]
      · show (if sep.isPrefixOf (c :: rest) = true then _ else _) =
          (if sep.isPrefixOf (c :: rest) = true then _ else _)
        rw [if_neg hp, if_neg hp, ih _ hr]

theorem splitOnLAux_fuel (sep : List Char) (hs : sep ≠ []) :
    ∀ f cs, cs.length ≤ f → splitOnLAux sep f cs = splitOnLAux sep cs.length cs := by
  intro f
  induction f with
  | zero =>
    intro cs h
    have : cs = [] := List.eq_nil_of_length_eq_zero (Nat.le_zero.mp h)
    subst this; rfl
  | succ f ih =>
    intro cs h
    rcases Nat.lt_or_ge cs.length (f + 1) with hlt | hge
    · have hle : cs.length ≤ f := by omega
      rw [splitOnLAux_step sep hs f cs hle, ih _ hle]
    · have : cs.length = f + 1 := by omega
      rw [this]

theorem splitOnL_nil (sep : List Char) : splitOnL sep [] = [[]] := rfl

theorem splitOnL_cons_neg (sep : List Char) (c : Char) (rest : List Char)
    (h : ¬ sep.isPrefixOf (c :: rest)) :
    splitOnL sep (c :: rest) = consHead c (splitOnL sep rest) := by
  show (if sep.isPrefixOf (c :: rest) = true then _ else _) = _
  rw [if_neg h]
  rfl

theorem splitOnL_cons_pos (sep : List Char) (hs : sep ≠ []) (c : Char) (rest : List Char)
    (h : sep.isPrefixOf (c :: rest)) :
    splitOnL sep (c :: rest) = [] :: splitOnL sep ((c :: rest).drop sep.length) := by
  have h1 : 1 ≤ sep.length := by
    cases sep with
    | nil => exact absurd rfl hs
    | cons _ _ => simp
  show (if sep.isPrefixOf (c :: rest) = true then _ else _) = _
  rw [if_pos h]
  congr 1
  apply splitOnLAux_fuel sep hs
  simp only [List.length_drop, List.length_cons]
  omega

theorem splitOnL_no_occ (s0 : Char) (st a : List Char) (h : s0 ∉ a) :
    splitOnL (s0 :: st) a = [a] := by
  induction a with
  | nil => rfl
  | cons c a ih =>
    have hc : s0 ≠ c := fun he => h (he ▸ List.mem_cons_self c a)
    have hp : ¬ (s0 :: st).isPrefixOf (c :: a) := by
      simp [List.isPrefixOf, hc]
    rw [splitOnL_cons_neg _ _ _ hp, ih (fun hm => h (List.mem_cons_of_mem c hm))]
    rfl

theorem splitOnL_boundary (s0 : Char) (st a b : List Char) (h : s0 ∉ a) :
    splitOnL (s0 :: st) (a ++ (s0 :: st) ++ b) = a :: splitOnL (s0 :: st) b := by
  induction a with
  | nil =>
    have hp : (s0 :: st).isPrefixOf (s0 :: (st ++ b)) := by
      rw [List.isPrefixOf_iff_prefix]
      exact ⟨b, by simp⟩
    have h2 := splitOnL_cons_pos (s0 :: st) (by simp) s0 (st ++ b) hp
    simp only [List.nil_append, List.cons_append]
    rw [h2]
    congr 1
    show splitOnL (s0 :: st) (List.drop (st.length + 1) (s0 :: (st ++ b))) = _
    rw [List.drop_succ_cons, List.drop_left]
  | cons c a ih =>
    have hc : s0 ≠ c := fun he => h (he ▸ List.mem_cons_self c a)
    have hp : ¬ (s0 :: st).isPrefixOf (c :: (a ++ (s0 :: st) ++ b)) := by
      simp [List.isPrefixOf, hc]
    have ha : s0 ∉ a := fun hm => h (List.mem_cons_of_mem c hm)
    calc splitOnL (s0 :: st) ((c :: a) ++ (s0 :: st) ++ b)
        = consHead c (splitOnL (s0 :: st) (a ++ (s0 :: st) ++ b)) := by
          simpa using splitOnL_cons_neg (s0 :: st) c (a ++ (s0 :: st) ++ b) hp
      _ = consHead c (a :: splitOnL (s0 :: st) b) := by rw [ih ha]
      _ = (c :: a) :: splitOnL (s0 :: st) b := rfl

theorem splitBlocksAux_step :
    ∀ f cs, cs.length ≤ f → splitBlocksAux (f + 1) cs = splitBlocksAux f cs := by
  intro f
  induction f with
  | zero =>
    intro cs h
    have : cs = [] := List.eq_nil_of_length_eq_zero (Nat.le_zero.mp h)
    subst this; rfl
  | succ f ih =>
    intro cs h
    cases cs with
    | nil => rfl
    | cons c rest =>
      have hr : rest.length ≤ f := by
        simp only [List.length_cons] at h; omega
      by_cases hc : c = '\n'
      · subst hc
        simp only [splitBlocksAux, eq_self_iff_true, if_true]
        cases hk : sepTail rest with
        | none => simp only [hk, ih _ hr]
        | some k =>
          have hd : (rest.drop k).length ≤ f := by
            simp only [List.length_drop]; omega
          simp only [hk, ih _ hd]
      · simp only [splitBlocksAux, hc, if_false, ih _ hr]

theorem splitBlocksAux_fuel :
    ∀ f cs, cs.length ≤ f → splitBlocksAux f cs = splitBlocksAux cs.length cs := by
  intro f
  induction f with
  | zero =>
    intro cs h
    have : cs = [] := List.eq_nil_of_length_eq_zero (Nat.le_zero.mp h)
    subst this; rfl
  | succ f ih =>
    intro cs h
    rcases Nat.lt_or_ge cs.length (f + 1) with hlt | hge
    · have hle : cs.length ≤ f := by omega
      rw [splitBlocksAux_step f cs hle, ih _ hle]
    · have : cs.length = f + 1 := by omega
      rw [this]

theorem splitBlocks_nil : splitBlocks [] = [[]] := rfl

theorem splitBlocks_cons_other (c : Char) (rest : List Char) (hc : c ≠ '\n') :
    splitBlocks (c :: rest) = consHead c (splitBlocks rest) := by
  simp only [splitBlocks, List.length_cons, splitBlocksAux, hc, if_false]

theorem splitBlocks_cons_nl_none (rest : List Char) (h : sepTail rest = none) :
    splitBlocks ('\n' :: rest) = consHead '\n' (splitBlocks rest) := by
  simp only [splitBlocks, List.length_cons, splitBlocksAux, eq_self_iff_true, if_true, h]

theorem splitBlocks_cons_nl_some (rest : List Char) (k : ℕ) (h : sepTail rest = some k) :
    splitBlocks ('\n' :: rest) = [] :: splitBlocks (rest.drop k) := by
  simp only [splitBlocks, List.length_cons, splitBlocksAux, eq_self_iff_true, if_true, h]
  congr 1
  apply splitBlocksAux_fuel
  simp only [List.length_drop]
  omega

theorem sepTail_eq_none (cs : List Char) (h : '\n' ∉ cs.takeWhile isJsWs) :
    sepTail cs = none := by
  induction cs with
  | nil => rfl
  | cons c rest ih =>
    by_cases hw : isJsWs c
    · have htw : (c :: rest).takeWhile isJsWs = c :: rest.takeWhile isJsWs := by
        simp [List.takeWhile_cons, hw]
      rw [htw] at h
      have hc : c ≠ '\n' := fun he => h (he ▸ List.mem_cons_self c _)
      have hr : '\n' ∉ rest.takeWhile isJsWs := fun hm => h (List.mem_cons_of_mem c hm)
      simp only [sepTail, hc, if_false, hw, if_true, ih hr]
    · have hc : c ≠ '\n' := fun he => hw (by rw [he]; decide)
      have hwf : isJsWs c = false := by simpa using hw
      simp only [sepTail, hc, if_false, hwf, Bool.false_eq_true, if_false]

theorem sepTail_of_head (t : List Char) (h : isJsWs (t.headD 'x') = false) :
    sepTail t = none := by
  cases t with
  | nil => rfl
  | cons c rest =>
    have hc : c ≠ '\n' := by
      intro he
      rw [List.headD_cons, he] at h
      exact absurd h (by decide)
    simp only [List.headD_cons] at h
    simp only [sepTail, hc, if_false, h, Bool.false_eq_true, if_false]

theorem sepTail_blank (t : List Char) (h : isJsWs (t.headD 'x') = false) :
    sepTail ('\n' :: t) = some 1 := by
  simp only [sepTail, eq_self_iff_true, if_true, sepTail_of_head t h]

theorem takeWhile_append_stop (b r : List Char) (h : ∃ c ∈ b, isJsWs c = false) :
    (b ++ r).takeWhile isJsWs = b.takeWhile isJsWs := by
  induction b with
  | nil =>
    rcases h with ⟨c, hc, _⟩
    exact absurd hc (List.not_mem_nil c)
  | cons c b ih =>
    by_cases hw : isJsWs c
    · have hb : ∃ d ∈ b, isJsWs d = false := by
        rcases h with ⟨d, hd, hdf⟩
        rcases List.mem_cons.mp hd with he | hm
        · exact absurd (he ▸ hw) (by rw [hdf]; decide)
        · exact ⟨d, hm, hdf⟩
      simp [List.takeWhile_cons, hw, ih hb]
    · simp [List.takeWhile_cons, hw]

theorem splitBlocks_ne_nil (cs : List Char) : splitBlocks cs ≠ [] := by
  suffices h : ∀ f cs, splitBlocksAux f cs ≠ [] from h _ _
  intro f
  induction f with
  | zero => intro cs; simp [splitBlocksAux]
  | succ f ih =>
    intro cs
    cases cs with
    | nil => simp [splitBlocksAux]
    | cons c rest =>
      by_cases hc : c = '\n'
      · subst hc
        simp only [splitBlocksAux, if_true]
        cases hk : sepTail rest with
        | none =>
          cases h : splitBlocksAux f rest with
          | nil => exact absurd h (ih rest)
          | cons p ps => simp [consHead, h]
        | some k => simp
      · simp only [splitBlocksAux, hc, if_false]
        cases h : splitBlocksAux f rest with
        | nil => exact absurd h (ih rest)
        | cons p ps => simp [consHead, h]

theorem splitBlocks_append (p rest : List Char) (h : SafeNl p rest) :
    splitBlocks (p ++ rest) = prepend p (splitBlocks rest) := by
  induction p with
  | nil =>
    cases hb : splitBlocks rest with
    | nil => exact absurd hb (splitBlocks_ne_nil rest)
    | cons q qs => simp [prepend, hb]
  | cons c p ih =>
    have hsafe : SafeNl p rest := by
      intro a b hab
      exact h (c :: a) b (by rw [hab]; rfl)
    by_cases hc : c = '\n'
    · subst hc
      have hnone : sepTail (p ++ rest) = none :=
        sepTail_eq_none _ (h [] p rfl)
      calc splitBlocks (('\n' :: p) ++ rest)
          = consHead '\n' (splitBlocks (p ++ rest)) := by
            rw [List.cons_append]
            exact splitBlocks_cons_nl_none _ hnone
        _ = consHead '\n' (prepend p (splitBlocks rest)) := by rw [ih hsafe]
        _ = prepend ('\n' :: p) (splitBlocks rest) := consHead_prepend _ _ _
    · calc splitBlocks ((c :: p) ++ rest)
          = consHead c (splitBlocks (p ++ rest)) := by
            rw [List.cons_append]
            exact splitBlocks_cons_other _ _ hc
        _ = consHead c (prepend p (splitBlocks rest)) := by rw [ih hsafe]
        _ = prepend (c :: p) (splitBlocks rest) := consHead_prepend _ _ _

theorem nicePiece_safeNl (p rest : List Char)
    (hn : NicePiece p)
    (hr : rest = [] ∨ ∃ t, rest = '\n' :: '\n' :: t) :
    SafeNl p rest := by
  intro a b hab
  rcases hn.2.2 a b hab with ⟨hnb, hex⟩
  rcases hr with h0 | ⟨t, h1⟩
  · rw [h0, List.append_nil]; exact hnb
  · rw [h1, takeWhile_append_stop b _ hex]; exact hnb

theorem interTwo_headD (q : List Char) (qs : List (List Char)) (hq : q ≠ []) :
    (interTwo (q :: qs)).headD 'x' = q.headD 'x' := by
  cases qs with
  | nil => rfl
  | cons q2 qs2 =>
    cases q with
    | nil => exact absurd rfl hq
    | cons c t => rfl

theorem splitBlocks_interTwo (ps : List (List Char)) (hne : ps ≠ [])
    (hn : ∀ p ∈ ps, NicePiece p) :
    splitBlocks (interTwo ps) = ps := by
  induction ps with
  | nil => exact absurd rfl hne
  | cons p ps ih =>
    have hnp : NicePiece p := hn p (List.mem_cons_self _ _)
    cases ps with
    | nil =>
      show splitBlocks p = [p]
      have h1 : splitBlocks (p ++ []) = prepend p (splitBlocks []) :=
        splitBlocks_append p [] (nicePiece_safeNl p [] hnp (Or.inl rfl))
      rw [List.append_nil] at h1
      rw [h1, splitBlocks_nil]
      simp [prepend]
    | cons q qs =>
      have hq : NicePiece q := hn q (List.mem_cons_of_mem p (List.mem_cons_self _ _))
      have hstep : interTwo (p :: q :: qs) = p ++ '\n' :: '\n' :: interTwo (q :: qs) := rfl
      rw [hstep]
      have hsafe : SafeNl p ('\n' :: '\n' :: interTwo (q :: qs)) :=
        nicePiece_safeNl p _ hnp (Or.inr ⟨_, rfl⟩)
      rw [splitBlocks_append p _ hsafe]
      have hhead : isJsWs ((interTwo (q :: qs)).headD 'x') = false := by
        rw [interTwo_headD q qs hq.1]
        exact hq.2.1
      have hsep : sepTail ('\n' :: interTwo (q :: qs)) = some 1 :=
        sepTail_blank _ hhead
      rw [splitBlocks_cons_nl_some _ 1 hsep]
      simp only [List.drop_one, List.tail_cons]
      rw [ih (by simp) (fun r hrm => hn r (List.mem_cons_of_mem p hrm))]
      simp [prepend]

theorem joinWith_blocks (ps : List (List Char)) (hne : ps ≠ []) :
    joinWith '\n' (ps.map (fun p => p ++ ['\n'])) = interTwo ps ++ ['\n'] := by
  induction ps with
  | nil => exact absurd rfl hne
  | cons p ps ih =>
    cases ps with
    | nil => rfl
    | cons q qs =>
      show (p ++ ['\n']) ++ '\n' :: joinWith '\n' ((q :: qs).map (fun p => p ++ ['\n'])) = _
      rw [ih (by simp)]
      show _ = (p ++ '\n' :: '\n' :: interTwo (q :: qs)) ++ ['\n']
      simp

theorem jsTrim_of_clean (s : List Char) (hne : s ≠ [])
    (h1 : isJsWs (s.headD 'x') = false) (h2 : isJsWs (s.getLastD 'x') = false) :
    jsTrim (s ++ ['\n']) = s := by
  cases s with
  | nil => exact absurd rfl hne
  | cons c t =>
    simp only [List.headD_cons] at h1
    have hfront : (c :: t ++ ['\n']).dropWhile isJsWs = c :: t ++ ['\n'] := by
      rw [List.cons_append, List.dropWhile_cons]
      simp [h1]
    show (((c :: t ++ ['\n']).dropWhile isJsWs).reverse.dropWhile isJsWs).reverse = c :: t
    rw [hfront]
    have hrev : (c :: t ++ ['\n']).reverse = '\n' :: (c :: t).reverse := by
      simp
    rw [hrev, List.dropWhile_cons]
    have hnl : isJsWs '\n' = true := by decide
    simp only [hnl, if_true]
    have hlast : (c :: t).reverse.headD 'x' = (c :: t).getLastD 'x' := by
      rw [List.headD_eq_head?, List.head?_reverse, List.getLastD_eq_getLast?]
    cases hr : (c :: t).reverse with
    | nil => simp at hr
    | cons r rs =>
      have hrw : isJsWs r = false := by
        have := hlast
        rw [hr] at this
        simp only [List.headD_cons] at this
        rw [this]
        exact h2
      rw [List.dropWhile_cons]
      simp only [hrw, Bool.false_eq_true, if_false]
      rw [← hr, List.reverse_reverse]

/-! ### Digit strings and the numeric parsers -/

theorem isDig_mem {c : Char} (h : isDig c = true) :
    c ∈ ['0', '1', '2', '3', '4', '5', '6', '7', '8', '9'] := by
  simp only [isDig, Bool.and_eq_true, decide_eq_true_eq] at h
  obtain ⟨h1, h2⟩ := h
  have hv1 : 48 ≤ c.toNat := h1
  have hv2 : c.toNat ≤ 57 := h2
  have hc : Char.ofNat c.toNat = c := Char.ofNat_toNat c
  interval_cases hval : c.toNat <;> (rw [← hc]; decide)

theorem isDig_facts {c : Char} (h : isDig c = true) :
    isJsWs c = false ∧ c ≠ '\n' ∧ c ≠ ':' ∧ c ≠ ',' ∧ c ≠ ' ' ∧
      c ≠ '+' ∧ c ≠ '-' ∧ c ≠ '.' := by
  have hm := isDig_mem h
  fin_cases hm <;> decide

theorem jsTrim_all_not_ws (cs : List Char) (h : ∀ c ∈ cs, isJsWs c = false) :
    jsTrim cs = cs := by
  have h1 : cs.dropWhile isJsWs = cs := by
    cases cs with
    | nil => rfl
    | cons c t =>
      rw [List.dropWhile_cons]
      simp [h c (List.mem_cons_self c t)]
  unfold jsTrim
  rw [h1]
  have h2 : cs.reverse.dropWhile isJsWs = cs.reverse := by
    cases hr : cs.reverse with
    | nil => rfl
    | cons c t =>
      have hcm : c ∈ cs := by
        have : c ∈ cs.reverse := hr ▸ List.mem_cons_self c t
        simpa using this
      rw [List.dropWhile_cons]
      simp [h c hcm]
  rw [h2, List.reverse_reverse]

theorem takeWhile_all (p : Char → Bool) (ds : List Char) (h : ∀ c ∈ ds, p c = true) :
    ds.takeWhile p = ds := by
  induction ds with
  | nil => rfl
  | cons c t ih =>
    rw [List.takeWhile_cons]
    simp only [h c (List.mem_cons_self c t), if_true]
    rw [ih (fun d hd => h d (List.mem_cons_of_mem c hd))]

theorem dropWhile_all (p : Char → Bool) (ds : List Char) (h : ∀ c ∈ ds, p c = true) :
    ds.dropWhile p = [] := by
  induction ds with
  | nil => rfl
  | cons c t ih =>
    rw [List.dropWhile_cons]
    simp only [h c (List.mem_cons_self c t), if_true]
    exact ih (fun d hd => h d (List.mem_cons_of_mem c hd))

theorem jsNumber_digits (ds : List Char) (hne : ds ≠ [])
    (hd : ∀ c ∈ ds, isDig c = true) :
    jsNumber ds = some ((digitsValN ds : ℚ)) := by
  have hws : ∀ c ∈ ds, isJsWs c = false := fun c hc => (isDig_facts (hd c hc)).1
  have hdec : parseDec ds = some ((digitsValN ds : ℚ)) := by
    unfold parseDec
    rw [takeWhile_all isDig ds hd, dropWhile_all isDig ds hd]
    simp [hne]
  unfold jsNumber
  rw [jsTrim_all_not_ws ds hws]
  cases ds with
  | nil => exact absurd rfl hne
  | cons c t =>
    have hc := isDig_facts (hd c (List.mem_cons_self c t))
    simp only [if_neg (by simp : ¬ (c :: t = []))]
    have hplus : c ≠ '+' := hc.2.2.2.2.2.1
    have hminus : c ≠ '-' := hc.2.2.2.2.2.2.1
    cases hcc : c
    split
    · next r heq =>
      rw [List.cons.injEq] at heq
      exact absurd heq.1 (by rw [← hcc] at *; exact hplus)
    · next r heq =>
      rw [List.cons.injEq] at heq
      exact absurd heq.1 (by rw [← hcc] at *; exact hminus)
    · next heq1 heq2 =>
      rw [← hcc]
      exact hdec

theorem parseIntJs_digits (ds : List Char) (hne : ds ≠ [])
    (hd : ∀ c ∈ ds, isDig c = true) :
    parseIntJs ds = some ((digitsValN ds : ℚ)) := by
  have hws : ∀ c ∈ ds, isJsWs c = false := fun c hc => (isDig_facts (hd c hc)).1
  have h1 : ds.dropWhile isJsWs = ds := by
    cases ds with
    | nil => rfl
    | cons c t =>
      rw [List.dropWhile_cons]
      simp [hws c (List.mem_cons_self c t)]
  unfold parseIntJs
  rw [h1]
  cases ds with
  | nil => exact absurd rfl hne
  | cons c t =>
    have hc := isDig_facts (hd c (List.mem_cons_self c t))
    have hplus : c ≠ '+' := hc.2.2.2.2.2.1
    have hminus : c ≠ '-' := hc.2.2.2.2.2.2.1
    show (if (if ((c :: t).headD 'x' = '-' : Bool) || ((c :: t).headD 'x' = '+' : Bool) then
          (c :: t).drop 1 else c :: t).takeWhile isDig = [] then none
      else some ((((if (c :: t).headD 'x' = '-' then (-1 : ℤ) else 1) *
          digitsValN ((if ((c :: t).headD 'x' = '-' : Bool) ||
            ((c :: t).headD 'x' = '+' : Bool) then
              (c :: t).drop 1 else c :: t).takeWhile isDig) : ℤ)) : ℚ)) =
      some ((digitsValN (c :: t) : ℚ))
    rw [List.headD_cons]
    rw [if_neg hminus]
    have hbor : ((c = '-' : Bool) || (c = '+' : Bool)) = false := by
      simp [hplus, hminus]
    rw [hbor]
    simp only [Bool.false_eq_true, if_false]
    rw [takeWhile_all isDig (c :: t) hd]
    rw [if_neg (by simp : ¬ (c :: t = []))]
    norm_num

theorem digitChar_isDig : ∀ m, m < 10 → isDig (Char.ofNat ('0'.toNat + m)) = true := by
  decide

theorem natReprAux_digits :
    ∀ fuel n, ∀ c ∈ natReprAux fuel n, isDig c = true := by
  intro fuel
  induction fuel with
  | zero => intro n c hc; simp [natReprAux] at hc
  | succ f ih =>
    intro n c hc
    by_cases h10 : n < 10
    · simp only [natReprAux, h10, if_true, List.mem_singleton] at hc
      rw [hc]
      exact digitChar_isDig n h10
    · simp only [natReprAux, h10, if_false, List.mem_append, List.mem_singleton] at hc
      rcases hc with h1 | h2
      · exact ih _ c h1
      · rw [h2]
        exact digitChar_isDig _ (Nat.mod_lt n (by norm_num))

theorem natRepr_digits (n : ℕ) : ∀ c ∈ natRepr n, isDig c = true :=
  natReprAux_digits (n + 1) n

theorem natRepr_ne_nil (n : ℕ) : natRepr n ≠ [] := by
  unfold natRepr natReprAux
  by_cases h10 : n < 10
  · simp [h10]
  · simp [h10]

set_option maxRecDepth 40000 in
theorem pad2_digits : ∀ n, n < 100 → ∀ c ∈ pad2 n, isDig c = true := by decide

set_option maxRecDepth 40000 in
theorem pad2_val : ∀ n, n < 100 → digitsValN (pad2 n) = n := by decide

set_option maxRecDepth 40000 in
theorem pad2_ne_nil : ∀ n, n < 100 → pad2 n ≠ [] := by decide

set_option maxRecDepth 400000 in
set_option maxHeartbeats 1600000 in
theorem pad3_digits : ∀ m, m < 1000 → ∀ c ∈ padStart 3 '0' (natRepr m), isDig c = true := by
  decide

set_option maxRecDepth 400000 in
set_option maxHeartbeats 1600000 in
theorem pad3_val : ∀ m, m < 1000 → digitsValN (padStart 3 '0' (natRepr m)) = m := by decide

set_option maxRecDepth 400000 in
set_option maxHeartbeats 1600000 in
theorem pad3_ne_nil : ∀ m, m < 1000 → padStart 3 '0' (natRepr m) ≠ [] := by decide

/-! ### Timecode round-trip -/

theorem tcN_mem (n m : ℕ) (hn : n < 86400) (hm : m < 1000) :
    ∀ c ∈ tcN n m, isDig c = true ∨ c = ':' ∨ c = ',' := by
  intro c hc
  unfold tcN at hc
  simp only [List.append_assoc, List.cons_append] at hc
  rcases List.mem_append.mp hc with h | h
  · exact Or.inl (pad2_digits (n / 3600) (by omega) c h)
  rcases List.mem_cons.mp h with h | h
  · exact Or.inr (Or.inl h)
  rcases List.mem_append.mp h with h | h
  · exact Or.inl (pad2_digits (n % 3600 / 60) (by omega) c h)
  rcases List.mem_cons.mp h with h | h
  · exact Or.inr (Or.inl h)
  rcases List.mem_append.mp h with h | h
  · exact Or.inl (pad2_digits (n % 60) (by omega) c h)
  rcases List.mem_cons.mp h with h | h
  · exact Or.inr (Or.inr h)
  · exact Or.inl (pad3_digits m hm c h)

theorem tcN_chars (n m : ℕ) (hn : n < 86400) (hm : m < 1000) :
    ∀ c ∈ tcN n m, c ≠ '\n' ∧ c ≠ ' ' ∧ isJsWs c = false := by
  intro c hc
  rcases tcN_mem n m hn hm c hc with h | h | h
  · have := isDig_facts h
    exact ⟨this.2.1, this.2.2.2.2.1, this.1⟩
  · rw [h]; refine ⟨by decide, by decide, by decide⟩
  · rw [h]; refine ⟨by decide, by decide, by decide⟩

theorem splitOnL_comma_tcN (n m : ℕ) (hn : n < 86400) (hm : m < 1000) :
    splitOnL [','] (tcN n m) =
      [pad2 (n / 3600) ++ ':' :: pad2 (n % 3600 / 60) ++ ':' :: pad2 (n % 60),
        padStart 3 '0' (natRepr m)] := by
  have hshape : tcN n m =
      (pad2 (n / 3600) ++ ':' :: pad2 (n % 3600 / 60) ++ ':' :: pad2 (n % 60)) ++
        [','] ++ padStart 3 '0' (natRepr m) := by
    unfold tcN
    simp [List.append_assoc]
  have hnoc : ',' ∉ pad2 (n / 3600) ++ ':' :: pad2 (n % 3600 / 60) ++ ':' :: pad2 (n % 60) := by
    intro hmem
    simp only [List.append_assoc, List.cons_append] at hmem
    rcases List.mem_append.mp hmem with h | h
    · exact absurd rfl (isDig_facts (pad2_digits (n / 3600) (by omega) _ h)).2.2.2.1
    rcases List.mem_cons.mp h with h | h
    · exact absurd h (by decide)
    rcases List.mem_append.mp h with h | h
    · exact absurd rfl (isDig_facts (pad2_digits (n % 3600 / 60) (by omega) _ h)).2.2.2.1
    rcases List.mem_cons.mp h with h | h
    · exact absurd h (by decide)
    · exact absurd rfl (isDig_facts (pad2_digits (n % 60) (by omega) _ h)).2.2.2.1
  have hnoc2 : ',' ∉ padStart 3 '0' (natRepr m) := by
    intro hmem
    exact absurd rfl (isDig_facts (pad3_digits m hm _ hmem)).2.2.2.1
  rw [hshape, splitOnL_boundary ',' [] _ _ hnoc, splitOnL_no_occ ',' [] _ hnoc2]

theorem splitOnL_colon_hms (a b c : ℕ) (ha : a < 100) (hb : b < 100) (hc : c < 100) :
    splitOnL [':'] (pad2 a ++ ':' :: pad2 b ++ ':' :: pad2 c) =
      [pad2 a, pad2 b, pad2 c] := by
  have hna : ':' ∉ pad2 a := fun hmem =>
    absurd rfl (isDig_facts (pad2_digits a ha _ hmem)).2.2.1
  have hnb : ':' ∉ pad2 b := fun hmem =>
    absurd rfl (isDig_facts (pad2_digits b hb _ hmem)).2.2.1
  have hnc : ':' ∉ pad2 c := fun hmem =>
    absurd rfl (isDig_facts (pad2_digits c hc _ hmem)).2.2.1
  have h1 : pad2 a ++ ':' :: pad2 b ++ ':' :: pad2 c =
      pad2 a ++ [':'] ++ (pad2 b ++ [':'] ++ pad2 c) := by
    simp [List.append_assoc]
  rw [h1, splitOnL_boundary ':' [] _ _ hna, splitOnL_boundary ':' [] _ _ hnb,
    splitOnL_no_occ ':' [] _ hnc]

theorem timeToSec_tcN (n m : ℕ) (hn : n < 86400) (hm : m < 1000) :
    timeToSec (tcN n m) = some ((n : ℚ) + (m : ℚ) / 1000) := by
  unfold timeToSec
  rw [splitOnL_comma_tcN n m hn hm]
  simp only [List.getD, List.get?, Option.getD_some]
  rw [splitOnL_colon_hms (n / 3600) (n % 3600 / 60) (n % 60) (by omega) (by omega) (by omega)]
  simp only [List.get?]
  simp only [jsNumberU, parseIntU]
  rw [jsNumber_digits _ (pad2_ne_nil _ (by omega)) (pad2_digits _ (by omega)),
    jsNumber_digits _ (pad2_ne_nil _ (by omega)) (pad2_digits _ (by omega)),
    jsNumber_digits _ (pad2_ne_nil _ (by omega)) (pad2_digits _ (by omega)),
    parseIntJs_digits _ (pad3_ne_nil m hm) (pad3_digits m hm)]
  rw [pad2_val _ (by omega), pad2_val _ (by omega), pad2_val _ (by omega), pad3_val m hm]
  unfold nMul nAdd nDivC
  have harith : ((n / 3600 : ℕ) : ℚ) * 3600 + ((n % 3600 / 60 : ℕ) : ℚ) * 60 +
      (((n % 60 : ℕ) : ℚ) + (m : ℚ) / 1000) = (n : ℚ) + (m : ℚ) / 1000 := by
    have hn3 : (n / 3600) * 3600 + (n % 3600 / 60) * 60 + n % 60 = n := by omega
    have : ((n / 3600 : ℕ) : ℚ) * 3600 + ((n % 3600 / 60 : ℕ) : ℚ) * 60 +
        ((n % 60 : ℕ) : ℚ) = (n : ℚ) := by
      push_cast
      exact_mod_cast congrArg (fun k : ℕ => (k : ℚ)) hn3
    linarith
  exact congrArg some harith

theorem msN_bounds (q : ℚ) : 0 ≤ ⌊(q - (⌊q⌋ : ℚ)) * 1000⌋ ∧ ⌊(q - (⌊q⌋ : ℚ)) * 1000⌋ < 1000 := by
  constructor
  · apply Int.floor_nonneg.mpr
    have := Int.fract_nonneg q
    have hfq : q - (⌊q⌋ : ℚ) = Int.fract q := (Int.self_sub_floor q).symm
    rw [hfq]
    positivity
  · apply Int.floor_lt.mpr
    have h2 : q - (⌊q⌋ : ℚ) < 1 := by
      have := Int.fract_lt_one q
      have hfq : q - (⌊q⌋ : ℚ) = Int.fract q := (Int.self_sub_floor q).symm
      rw [hfq]; exact this
    push_cast
    nlinarith [Int.fract_nonneg q, (Int.self_sub_floor q).symm]

theorem formatTime_ok (q : ℚ) (h0 : 0 ≤ q) (h1 : q < 86400) :
    formatTime (some q) = .ok (tcQ q) := by
  have htr : jsTrunc q = ⌊q⌋ := by
    unfold jsTrunc
    rw [if_neg (not_lt.mpr h0)]
  have hfl0 : 0 ≤ ⌊q⌋ := Int.floor_nonneg.mpr h0
  have hfl1 : ⌊q⌋ < 86400 := by
    apply Int.floor_lt.mpr
    push_cast
    exact h1
  have hq : ((⌊q⌋.toNat : ℤ)) = ⌊q⌋ := Int.toNat_of_nonneg hfl0
  unfold formatTime
  dsimp only
  rw [htr]
  rw [if_neg (by omega : ¬ 8640000000000000 < (⌊q⌋ * 1000).natAbs)]
  have hmod : ⌊q⌋.emod 86400 = ⌊q⌋ := Int.emod_eq_of_lt hfl0 hfl1
  rw [hmod]
  have hmsn := msN_bounds q
  have hint : intRepr ⌊(q - (⌊q⌋ : ℚ)) * 1000⌋ =
      natRepr (⌊(q - (⌊q⌋ : ℚ)) * 1000⌋).toNat := by
    unfold intRepr
    rw [if_neg (by omega)]
  unfold tcQ tcN
  have e1 : (⌊q⌋ / 3600).toNat = ⌊q⌋.toNat / 3600 := by omega
  have e2 : (⌊q⌋ % 3600 / 60).toNat = ⌊q⌋.toNat % 3600 / 60 := by omega
  have e3 : (⌊q⌋ % 60).toNat = ⌊q⌋.toNat % 60 := by omega
  rw [e1, e2, e3, hint]

theorem timeToSec_tcQ (q : ℚ) (h0 : 0 ≤ q) (h1 : q < 86400) :
    timeToSec (tcQ q) = some (msQuant q) := by
  have hfl0 : 0 ≤ ⌊q⌋ := Int.floor_nonneg.mpr h0
  have hfl1 : ⌊q⌋ < 86400 := by
    apply Int.floor_lt.mpr
    push_cast
    exact h1
  have hmsn := msN_bounds q
  unfold tcQ
  rw [timeToSec_tcN _ _ (by omega) (by omega)]
  congr 1
  unfold msQuant
  have hsub : (q - (⌊q⌋ : ℚ)) * 1000 = q * 1000 - ((⌊q⌋ * 1000 : ℤ) : ℚ) := by
    push_cast
    ring
  have hfs : ⌊(q - (⌊q⌋ : ℚ)) * 1000⌋ = ⌊q * 1000⌋ - ⌊q⌋ * 1000 := by
    rw [hsub, Int.floor_sub_int]
  have hc1 : ((⌊q⌋.toNat : ℚ)) = ((⌊q⌋ : ℚ)) := by
    exact_mod_cast congrArg (fun z : ℤ => (z : ℚ)) (Int.toNat_of_nonneg hfl0)
  have hc2 : (((⌊(q - (⌊q⌋ : ℚ)) * 1000⌋).toNat : ℚ)) = ((⌊(q - (⌊q⌋ : ℚ)) * 1000⌋ : ℚ)) := by
    exact_mod_cast congrArg (fun z : ℤ => (z : ℚ)) (Int.toNat_of_nonneg hmsn.1)
  rw [hc1, hc2, hfs]
  push_cast
  ring

theorem msQuant_close (q : ℚ) : |msQuant q - q| ≤ 1 / 1000 := by
  have h1 : ((⌊q * 1000⌋ : ℚ)) ≤ q * 1000 := Int.floor_le _
  have h2 : q * 1000 - 1 < ((⌊q * 1000⌋ : ℚ)) := Int.sub_one_lt_floor _
  rw [abs_le]
  unfold msQuant
  constructor <;> linarith

/-! ### Speaker heuristic and block decoding -/

theorem takeWhile_ne_colon (sp rest : List Char) (hs : ':' ∉ sp) :
    (sp ++ ':' :: rest).takeWhile (fun c => c != ':') = sp := by
  induction sp with
  | nil => simp [List.takeWhile_cons]
  | cons c t ih =>
    have hc : c ≠ ':' := fun he => hs (he ▸ List.mem_cons_self c t)
    rw [List.cons_append, List.takeWhile_cons]
    have hb : (c != ':') = true := by simp [hc]
    simp only [hb, eq_self_iff_true, if_true]
    rw [ih (fun hm => hs (List.mem_cons_of_mem c hm))]

theorem dropWhile_ne_colon (sp rest : List Char) (hs : ':' ∉ sp) :
    (sp ++ ':' :: rest).dropWhile (fun c => c != ':') = ':' :: rest := by
  induction sp with
  | nil => simp [List.dropWhile_cons]
  | cons c t ih =>
    have hc : c ≠ ':' := fun he => hs (he ▸ List.mem_cons_self c t)
    rw [List.cons_append, List.dropWhile_cons]
    have hb : (c != ':') = true := by simp [hc]
    simp only [hb, eq_self_iff_true, if_true]
    exact ih (fun hm => hs (List.mem_cons_of_mem c hm))

theorem speakerOf_prefix (sp rest : List Char) (hsp : sp ≠ []) (hs : ':' ∉ sp) :
    speakerOf (sp ++ ':' :: rest) = some sp := by
  unfold speakerOf
  rw [takeWhile_ne_colon sp rest hs]
  rw [if_neg hsp]
  rw [if_neg (by simp only [List.length_append, List.length_cons]; omega)]

theorem speakerOf_no_colon (cs : List Char) (h : ':' ∉ cs) : speakerOf cs = none := by
  unfold speakerOf
  have htw : cs.takeWhile (fun c => c != ':') = cs := by
    apply takeWhile_all
    intro c hc
    simp only [bne_iff_ne, ne_eq, decide_eq_true_eq]
    exact fun he => h (he ▸ hc)
  rw [htw]
  by_cases hcs : cs = []
  · rw [if_pos hcs]
  · rw [if_neg hcs, if_pos rfl]

theorem stripSpkr_pfx (sp rest : List Char) (hs : ':' ∉ sp) :
    stripSpkr (sp ++ ':' :: rest) = rest.dropWhile isJsWs := by
  unfold stripSpkr
  rw [dropWhile_ne_colon sp rest hs]
  rfl

theorem arrow_data : (" --> ".data) = ' ' :: (['-', '-', '>'] ++ [' ']) := by decide

theorem splitOnL_three (l0 tl line : List Char)
    (h0 : '\n' ∉ l0) (h1 : '\n' ∉ tl) (h2 : '\n' ∉ line) :
    splitOnL ['\n'] (l0 ++ '\n' :: (tl ++ '\n' :: line)) = [l0, tl, line] := by
  calc splitOnL ['\n'] (l0 ++ '\n' :: (tl ++ '\n' :: line))
      = l0 :: splitOnL ['\n'] (tl ++ '\n' :: line) := by
        have he : l0 ++ ['\n'] ++ (tl ++ '\n' :: line) = l0 ++ '\n' :: (tl ++ '\n' :: line) := by
          simp
        rw [← he]
        exact splitOnL_boundary '\n' [] l0 (tl ++ '\n' :: line) h0
    _ = l0 :: tl :: splitOnL ['\n'] line := by
        have he : tl ++ ['\n'] ++ line = tl ++ '\n' :: line := by simp
        rw [← he, splitOnL_boundary '\n' [] tl line h1]
    _ = [l0, tl, line] := by
        rw [splitOnL_no_occ '\n' [] line h2]

theorem decodeBlock_three (now i : ℕ) (l0 tl line : List Char)
    (h0 : '\n' ∉ l0) (h1 : '\n' ∉ tl) (h2 : '\n' ∉ line)
    (ts te : List Char) (htl : tl = ts ++ (' ' :: (['-', '-', '>'] ++ [' '])) ++ te)
    (hts : ' ' ∉ ts) (hte : ' ' ∉ te) :
    decodeBlock now i (l0 ++ '\n' :: (tl ++ '\n' :: line)) = .ok (some
      { id := mkSrtId now i
        startTime := timeToSec ts
        endTime := timeToSec te
        speaker := speakerOf line
        text := match speakerOf line with
          | some _ => stripSpkr line
          | none => line }) := by
  have hsplit := splitOnL_three l0 tl line h0 h1 h2
  have harr : splitOnL (" --> ".data) tl = [ts, te] := by
    rw [arrow_data, htl, splitOnL_boundary ' ' _ ts te hts,
      splitOnL_no_occ ' ' _ te hte]
  unfold decodeBlock
  rw [hsplit]
  rw [if_neg (by norm_num)]
  simp only [List.getD, List.get?, Option.getD_some]
  rw [harr]
  simp only [List.get?, List.drop]
  rfl

/-! ### Encoder-side facts about good captions -/

theorem goodSub_spec (c : Subtitle) (h : goodSub c = true) :
    ∃ qs qe, c.startTime = some qs ∧ c.endTime = some qe ∧
      0 ≤ qs ∧ qs ≤ qe ∧ qe < 86400 ∧
      c.text ≠ [] ∧ '\n' ∉ c.text ∧ isJsWs (c.text.headD 'x') = false ∧
      isJsWs (c.text.getLastD 'x') = false ∧
      ((∃ sp, c.speaker = some sp ∧ sp ≠ [] ∧ ':' ∉ sp ∧ '\n' ∉ sp) ∨
        (c.speaker = none ∧ ':' ∉ c.text)) := by
  unfold goodSub at h
  simp only [Bool.and_eq_true, decide_eq_true_eq, Bool.not_eq_true',
    Option.isSome_iff_exists] at h
  obtain ⟨⟨⟨⟨⟨⟨⟨⟨⟨qs, hqs⟩, qe, hqe⟩, hge0⟩, hle⟩, hlt⟩, htne⟩, hnnl⟩, hhead⟩, hlast⟩ := h.1
  refine ⟨qs, qe, hqs, hqe, ?_, ?_, ?_, htne, hnnl, hhead, hlast, ?_⟩
  · rw [hqs] at hge0; simpa using hge0
  · rw [hqs, hqe] at hle; simpa using hle
  · rw [hqe] at hlt; simpa using hlt
  · have h2 := h.2
    cases hsp : c.speaker with
    | none =>
      rw [hsp] at h2
      simp only [decide_eq_true_eq] at h2
      exact Or.inr ⟨rfl, h2⟩
    | some sp =>
      rw [hsp] at h2
      simp only [Bool.and_eq_true, decide_eq_true_eq] at h2
      exact Or.inl ⟨sp, rfl, h2.1.1, h2.1.2, h2.2⟩

theorem headD_append_left (a b : List Char) (ha : a ≠ []) (d : Char) :
    (a ++ b).headD d = a.headD d := by
  cases a with
  | nil => exact absurd rfl ha
  | cons c t => rfl

theorem getLastD_append_right (a b : List Char) (hb : b ≠ []) (d : Char) :
    (a ++ b).getLastD d = b.getLastD d := by
  rw [List.getLastD_eq_getLast?, List.getLastD_eq_getLast?]
  rw [List.getLast?_append_of_ne_nil a hb]

theorem takeWhile_nil_of_head (cs : List Char) (h : isJsWs (cs.headD 'x') = false) :
    cs.takeWhile isJsWs = [] := by
  cases cs with
  | nil => rfl
  | cons c t =>
    rw [List.takeWhile_cons]
    simp only [List.headD_cons] at h
    simp [h]

theorem dropWhile_self_of_head (cs : List Char) (h : isJsWs (cs.headD 'x') = false) :
    cs.dropWhile isJsWs = cs := by
  cases cs with
  | nil => rfl
  | cons c t =>
    rw [List.dropWhile_cons]
    simp only [List.headD_cons] at h
    simp [h]

theorem natRepr_head_digit (n : ℕ) : isDig ((natRepr n).headD 'x') = true := by
  cases hr : natRepr n with
  | nil => exact absurd hr (natRepr_ne_nil n)
  | cons c t =>
    rw [List.headD_cons]
    exact natRepr_digits n c (hr ▸ List.mem_cons_self c t)

theorem pad2_head_digit : ∀ k, k < 100 → isDig ((pad2 k).headD 'x') = true := by decide

theorem tcN_ne_nil (n m : ℕ) : tcN n m ≠ [] := by
  unfold tcN
  intro h
  have := congrArg List.length h
  simp only [List.length_append, List.length_cons, List.length_nil] at this
  omega

theorem tcQ_props (q : ℚ) (h0 : 0 ≤ q) (h1 : q < 86400) :
    tcQ q ≠ [] ∧ isDig ((tcQ q).headD 'x') = true ∧
      (∀ c ∈ tcQ q, c ≠ '\n' ∧ c ≠ ' ' ∧ isJsWs c = false) := by
  have hfl0 : 0 ≤ ⌊q⌋ := Int.floor_nonneg.mpr h0
  have hfl1 : ⌊q⌋ < 86400 := by
    apply Int.floor_lt.mpr
    push_cast
    exact h1
  have hmsn := msN_bounds q
  have hn : (⌊q⌋).toNat < 86400 := by omega
  have hm : (⌊(q - (⌊q⌋ : ℚ)) * 1000⌋).toNat < 1000 := by omega
  refine ⟨tcN_ne_nil _ _, ?_, tcN_chars _ _ hn hm⟩
  unfold tcQ tcN
  simp only [List.append_assoc]
  rw [headD_append_left _ _ (pad2_ne_nil _ (by omega)) 'x']
  exact pad2_head_digit _ (by omega)

theorem lineOf_facts (c : Subtitle) (h : goodSub c = true) :
    '\n' ∉ lineOf c ∧ (∃ d ∈ lineOf c, isJsWs d = false) ∧
      isJsWs ((lineOf c).getLastD 'x') = false ∧ lineOf c ≠ [] := by
  obtain ⟨qs, qe, hqs, hqe, _, _, _, htne, hnnl, hhead, hlast, hspk⟩ := goodSub_spec c h
  have hlab : '\n' ∉ speakerLabel c.speaker := by
    rcases hspk with ⟨sp, hsp, hne, hnc, hnn⟩ | ⟨hsp, _⟩
    · rw [hsp]
      simp only [speakerLabel, if_neg hne]
      intro hm
      rcases List.mem_append.mp hm with hm | hm
      · exact hnn hm
      · revert hm; decide
    · rw [hsp]; simp [speakerLabel]
  constructor
  · intro hm
    rcases List.mem_append.mp hm with hm | hm
    · exact hlab hm
    · exact hnnl hm
  constructor
  · rcases hspk with ⟨sp, hsp, hne, hnc, hnn⟩ | ⟨hsp, _⟩
    · refine ⟨':', ?_, by decide⟩
      unfold lineOf
      rw [hsp]
      simp only [speakerLabel, if_neg hne]
      apply List.mem_append.mpr
      left
      apply List.mem_append.mpr
      right
      decide
    · refine ⟨c.text.headD 'x', ?_, hhead⟩
      unfold lineOf
      rw [hsp]
      simp only [speakerLabel]
      apply List.mem_append.mpr
      right
      cases ht : c.text with
      | nil => exact absurd ht htne
      | cons a t => rw [List.headD_cons]; exact List.mem_cons_self a t
  constructor
  · unfold lineOf
    rw [getLastD_append_right _ _ htne 'x']
    exact hlast
  · unfold lineOf
    intro hm
    rcases List.append_eq_nil.mp hm with ⟨_, h2⟩
    exact htne h2

theorem decode_lineOf (c : Subtitle) (h : goodSub c = true) :
    speakerOf (lineOf c) = c.speaker ∧
      (match speakerOf (lineOf c) with
        | some _ => stripSpkr (lineOf c)
        | none => lineOf c) = c.text := by
  obtain ⟨qs, qe, hqs, hqe, _, _, _, htne, hnnl, hhead, hlast, hspk⟩ := goodSub_spec c h
  rcases hspk with ⟨sp, hsp, hne, hnc, hnn⟩ | ⟨hsp, hnc⟩
  · have hline : lineOf c = sp ++ ':' :: (' ' :: c.text) := by
      unfold lineOf
      rw [hsp]
      simp only [speakerLabel, if_neg hne]
      simp [List.append_assoc]
    rw [hline, speakerOf_prefix sp _ hne hnc, hsp]
    refine ⟨rfl, ?_⟩
    rw [stripSpkr_pfx sp _ hnc]
    show (' ' :: c.text).dropWhile isJsWs = c.text
    rw [List.dropWhile_cons]
    simp only [if_pos (by decide : isJsWs ' ' = true)]
    exact dropWhile_self_of_head c.text hhead
  · have hline : lineOf c = c.text := by
      unfold lineOf
      rw [hsp]
      simp [speakerLabel]
    rw [hline, speakerOf_no_colon c.text hnc, hsp]
    exact ⟨rfl, rfl⟩

theorem headD_mem (cs : List Char) (hne : cs ≠ []) (d : Char) : cs.headD d ∈ cs := by
  cases cs with
  | nil => exact absurd rfl hne
  | cons c t => exact List.mem_cons_self c t

theorem append_nl_cases (P1 Q : List Char) (hP : '\n' ∉ P1) :
    ∀ a b, P1 ++ '\n' :: Q = a ++ '\n' :: b →
      (a = P1 ∧ b = Q) ∨ ∃ a2, a = P1 ++ '\n' :: a2 ∧ Q = a2 ++ '\n' :: b := by
  induction P1 with
  | nil =>
    intro a b h
    simp only [List.nil_append] at h
    cases a with
    | nil =>
      simp only [List.nil_append] at h
      injection h with _ h2
      exact Or.inl ⟨rfl, h2.symm⟩
    | cons c a2 =>
      rw [List.cons_append] at h
      injection h with h1 h2
      refine Or.inr ⟨a2, ?_, h2⟩
      rw [List.nil_append, ← h1]
  | cons p P1t ih =>
    intro a b h
    cases a with
    | nil =>
      rw [List.cons_append, List.nil_append] at h
      injection h with h1 _
      exact absurd (h1 ▸ List.mem_cons_self p P1t) hP
    | cons c a2 =>
      rw [List.cons_append, List.cons_append] at h
      injection h with h1 h2
      rcases ih (fun hm => hP (List.mem_cons_of_mem p hm)) a2 b h2 with ⟨ha, hb⟩ | ⟨a3, ha, hq⟩
      · exact Or.inl ⟨by rw [ha, h1], hb⟩
      · refine Or.inr ⟨a3, ?_, hq⟩
        rw [ha, h1, List.cons_append]

theorem tcLine_props (qs qe : ℚ) (hs0 : 0 ≤ qs) (hs1 : qs < 86400)
    (he0 : 0 ≤ qe) (he1 : qe < 86400) :
    let tcl := tcQ qs ++ (' ' :: (['-', '-', '>'] ++ [' '])) ++ tcQ qe
    tcl ≠ [] ∧ isDig (tcl.headD 'x') = true ∧ '\n' ∉ tcl := by
  obtain ⟨hne1, hh1, hch1⟩ := tcQ_props qs hs0 hs1
  obtain ⟨hne2, hh2, hch2⟩ := tcQ_props qe he0 he1
  refine ⟨by simp [hne1], ?_, ?_⟩
  · rw [headD_append_left _ _ (by simp [hne1]) 'x', headD_append_left _ _ hne1 'x']
    exact hh1
  · intro hm
    rcases List.mem_append.mp hm with hm | hm
    · rcases List.mem_append.mp hm with hm | hm
      · exact (hch1 _ hm).1 rfl
      · revert hm; decide
    · exact (hch2 _ hm).1 rfl

theorem nice_coreOf (i : ℕ) (c : Subtitle) (h : goodSub c = true) :
    NicePiece (coreOf i c) := by
  obtain ⟨qs, qe, hqs, hqe, hs0, hle, he1, _⟩ := goodSub_spec c h
  have hs1 : qs < 86400 := lt_of_le_of_lt hle he1
  have he0 : 0 ≤ qe := le_trans hs0 hle
  obtain ⟨hltne, hlnonws, hllast, hlne⟩ := lineOf_facts c h
  have hTL := tcLine_props qs qe hs0 hs1 he0 he1
  obtain ⟨hTLne, hTLhead, hTLnl⟩ := hTL
  have hgd : tcQ (c.startTime.getD 0) = tcQ qs := by rw [hqs]; rfl
  have hgd2 : tcQ (c.endTime.getD 0) = tcQ qe := by rw [hqe]; rfl
  have hP1nl : '\n' ∉ natRepr (i + 1) := fun hm =>
    (isDig_facts (natRepr_digits (i + 1) _ hm)).2.1 rfl
  refine ⟨?_, ?_, ?_⟩
  · unfold coreOf
    simp [natRepr_ne_nil (i + 1)]
  · unfold coreOf
    rw [headD_append_left _ _ (natRepr_ne_nil (i + 1)) 'x']
    exact (isDig_facts (natRepr_head_digit (i + 1))).1
  · intro a b hab
    unfold coreOf at hab
    rw [hgd, hgd2] at hab
    rcases append_nl_cases _ _ hP1nl a b hab with ⟨ha, hb⟩ | ⟨a2, ha, hq⟩
    · subst hb
      have hbne : tcQ qs ++ (' ' :: (['-', '-', '>'] ++ [' '])) ++ tcQ qe ++
          '\n' :: lineOf c ≠ [] := by
        simp
      have hbh : isJsWs ((tcQ qs ++ (' ' :: (['-', '-', '>'] ++ [' '])) ++ tcQ qe ++
          '\n' :: lineOf c).headD 'x') = false := by
        rw [headD_append_left _ _ hTLne 'x']
        exact (isDig_facts hTLhead).1
      constructor
      · rw [takeWhile_nil_of_head _ hbh]
        exact List.not_mem_nil '\n'
      · exact ⟨_, headD_mem _ hbne 'x', hbh⟩
    · rcases append_nl_cases _ _ hTLnl a2 b hq with ⟨ha2, hb⟩ | ⟨a3, _, hline⟩
      · subst hb
        constructor
        · exact fun hm => hltne ((List.takeWhile_sublist _).subset hm)
        · exact hlnonws
      · exfalso
        apply hltne
        rw [hline]
        exact List.mem_append.mpr (Or.inr (List.mem_cons_self '\n' b))

theorem srtBlock_good (i : ℕ) (c : Subtitle) (h : goodSub c = true) :
    srtBlock i c = .ok (coreOf i c ++ ['\n']) := by
  obtain ⟨qs, qe, hqs, hqe, hs0, hle, he1, _⟩ := goodSub_spec c h
  have hs1 : qs < 86400 := lt_of_le_of_lt hle he1
  have he0 : 0 ≤ qe := le_trans hs0 hle
  unfold srtBlock
  rw [hqs, hqe, formatTime_ok qs hs0 hs1, formatTime_ok qe he0 he1]
  show Except.ok _ = Except.ok _
  congr 1
  unfold coreOf lineOf
  rw [hqs, hqe]
  simp only [Option.getD_some, arrow_data]
  simp [List.append_assoc]

theorem srtBlocks_good (l : List Subtitle) :
    ∀ i, (∀ c ∈ l, goodSub c = true) →
      srtBlocks i l = .ok ((coreListOf i l).map (fun p => p ++ ['\n'])) := by
  induction l with
  | nil => intro i _; rfl
  | cons c t ih =>
    intro i h
    unfold srtBlocks
    rw [srtBlock_good i c (h c (List.mem_cons_self c t)),
      ih (i + 1) (fun d hd => h d (List.mem_cons_of_mem c hd))]
    rfl

theorem mem_insertByStart (a : Subtitle) (l : List Subtitle) (c : Subtitle) :
    c ∈ insertByStart a l ↔ c = a ∨ c ∈ l := by
  induction l with
  | nil => simp [insertByStart]
  | cons b t ih =>
    unfold insertByStart
    by_cases hle : jsLeStart a b
    · simp [hle]
    · have hlef : jsLeStart a b = false := by simpa using hle
      simp only [hlef, Bool.false_eq_true, if_false, List.mem_cons, ih]
      tauto

theorem mem_sortByStart (x : List Subtitle) (c : Subtitle) :
    c ∈ sortByStart x ↔ c ∈ x := by
  induction x with
  | nil => simp [sortByStart]
  | cons a t ih =>
    unfold sortByStart
    rw [mem_insertByStart, ih, List.mem_cons]

theorem sortByStart_length (x : List Subtitle) :
    (sortByStart x).length = x.length := by
  have hins : ∀ a l, (insertByStart a l).length = l.length + 1 := by
    intro a l
    induction l with
    | nil => rfl
    | cons b t ih =>
      unfold insertByStart
      by_cases hle : jsLeStart a b
      · simp [hle]
      · have hlef : jsLeStart a b = false := by simpa using hle
        simp only [hlef, Bool.false_eq_true, if_false, List.length_cons, ih]
  induction x with
  | nil => rfl
  | cons a t ih =>
    unfold sortByStart
    rw [hins, ih]
    rfl

theorem coreListOf_mem (l : List Subtitle) :
    ∀ i p, p ∈ coreListOf i l → ∃ j c, c ∈ l ∧ p = coreOf j c := by
  induction l with
  | nil => intro i p hp; simp [coreListOf] at hp
  | cons c t ih =>
    intro i p hp
    unfold coreListOf at hp
    rcases List.mem_cons.mp hp with hp | hp
    · exact ⟨i, c, List.mem_cons_self c t, hp⟩
    · obtain ⟨j, d, hd, hpd⟩ := ih (i + 1) p hp
      exact ⟨j, d, List.mem_cons_of_mem c hd, hpd⟩

theorem coreListOf_ne_nil (l : List Subtitle) (i : ℕ) (hl : l ≠ []) :
    coreListOf i l ≠ [] := by
  cases l with
  | nil => exact absurd rfl hl
  | cons c t => simp [coreListOf]

theorem coreListOf_length (l : List Subtitle) :
    ∀ i, (coreListOf i l).length = l.length := by
  induction l with
  | nil => intro i; rfl
  | cons c t ih =>
    intro i
    unfold coreListOf
    rw [List.length_cons, ih (i + 1)]
    rfl

theorem getLastD_default_irrel (cs : List Char) (hne : cs ≠ []) (d d2 : Char) :
    cs.getLastD d = cs.getLastD d2 := by
  rw [List.getLastD_eq_getLast?, List.getLastD_eq_getLast?]
  cases hg : cs.getLast? with
  | none => exact absurd (List.getLast?_eq_none_iff.mp hg) hne
  | some y => rfl

theorem coreOf_ne_nil (i : ℕ) (c : Subtitle) : coreOf i c ≠ [] := by
  unfold coreOf
  simp [natRepr_ne_nil (i + 1)]

theorem coreOf_last_nonws (i : ℕ) (c : Subtitle) (h : goodSub c = true) :
    isJsWs ((coreOf i c).getLastD 'x') = false := by
  obtain ⟨hltne, hlnonws, hllast, hlne⟩ := lineOf_facts c h
  unfold coreOf
  rw [getLastD_append_right _ _ (by simp) 'x', List.getLastD_cons,
    getLastD_append_right _ _ (by simp) '\n', List.getLastD_cons,
    getLastD_default_irrel _ hlne '\n' 'x']
  exact hllast

theorem interTwo_ne_nil (ps : List (List Char)) (hne : ps ≠ [])
    (hp : ∀ p ∈ ps, p ≠ []) : interTwo ps ≠ [] := by
  cases ps with
  | nil => exact absurd rfl hne
  | cons p t =>
    cases t with
    | nil => exact hp p (List.mem_cons_self p [])
    | cons q qs =>
      show p ++ '\n' :: '\n' :: interTwo (q :: qs) ≠ []
      simp

theorem interTwo_last_nonws (ps : List (List Char)) (hne : ps ≠ [])
    (hp : ∀ p ∈ ps, p ≠ [] ∧ isJsWs (p.getLastD 'x') = false) :
    isJsWs ((interTwo ps).getLastD 'x') = false := by
  induction ps with
  | nil => exact absurd rfl hne
  | cons p t ih =>
    cases t with
    | nil => exact (hp p (List.mem_cons_self p [])).2
    | cons q qs =>
      have ht : interTwo (q :: qs) ≠ [] :=
        interTwo_ne_nil _ (by simp)
          (fun r hr => (hp r (List.mem_cons_of_mem p hr)).1)
      show isJsWs ((p ++ '\n' :: '\n' :: interTwo (q :: qs)).getLastD 'x') = false
      rw [getLastD_append_right _ _ (by simp) 'x', List.getLastD_cons, List.getLastD_cons,
        getLastD_default_irrel _ ht '\n' 'x']
      exact ih (by simp) (fun r hr => hp r (List.mem_cons_of_mem p hr))

theorem convertToSRT_good (x : List Subtitle) (h : ∀ c ∈ x, goodSub c = true) :
    convertToSRT x =
      .ok (joinWith '\n' ((coreListOf 0 (sortByStart x)).map (fun p => p ++ ['\n']))) := by
  unfold convertToSRT
  rw [srtBlocks_good (sortByStart x) 0
    (fun c hc => h c ((mem_sortByStart x c).mp hc))]

set_option maxHeartbeats 1000000 in
theorem decodeBlock_coreOf (now i : ℕ) (c : Subtitle) (h : goodSub c = true) :
    decodeBlock now i (coreOf i c) = .ok (some (decOf now i c)) := by
  obtain ⟨qs, qe, hqs, hqe, hs0, hle, he1, _⟩ := goodSub_spec c h
  have hs1 : qs < 86400 := lt_of_le_of_lt hle he1
  have he0 : 0 ≤ qe := le_trans hs0 hle
  obtain ⟨hne1, hh1, hch1⟩ := tcQ_props qs hs0 hs1
  obtain ⟨hne2, hh2, hch2⟩ := tcQ_props qe he0 he1
  obtain ⟨hTLne, hTLhead, hTLnl⟩ := tcLine_props qs qe hs0 hs1 he0 he1
  obtain ⟨hltne, _, _, _⟩ := lineOf_facts c h
  have hP1nl : '\n' ∉ natRepr (i + 1) := fun hm =>
    (isDig_facts (natRepr_digits (i + 1) _ hm)).2.1 rfl
  have hts : ' ' ∉ tcQ qs := fun hm => (hch1 _ hm).2.1 rfl
  have hte : ' ' ∉ tcQ qe := fun hm => (hch2 _ hm).2.1 rfl
  have hcore : coreOf i c = natRepr (i + 1) ++ '\n' ::
      ((tcQ qs ++ (' ' :: (['-', '-', '>'] ++ [' '])) ++ tcQ qe) ++ '\n' :: lineOf c) := by
    unfold coreOf
    rw [hqs, hqe]
    simp only [Option.getD_some]
  rw [hcore,
    decodeBlock_three now i _ _ _ hP1nl hTLnl hltne (tcQ qs) (tcQ qe) rfl hts hte]
  obtain ⟨hspk, htext⟩ := decode_lineOf c h
  unfold decOf
  rw [hqs, hqe]
  rw [timeToSec_tcQ qs hs0 hs1, timeToSec_tcQ qe he0 he1, htext, hspk]
  rfl

theorem decListOf_map_some_parse (now : ℕ) (l : List Subtitle) :
    ∀ i, (∀ c ∈ l, goodSub c = true) →
      parseBlocks now i (coreListOf i l) = .ok ((decListOf now i l).map some) := by
  induction l with
  | nil => intro i _; rfl
  | cons c t ih =>
    intro i h
    show parseBlocks now i (coreOf i c :: coreListOf (i + 1) t) = _
    unfold parseBlocks
    rw [decodeBlock_coreOf now i c (h c (List.mem_cons_self c t)),
      ih (i + 1) (fun d hd => h d (List.mem_cons_of_mem c hd))]
    rfl

theorem filterMap_id_map_some (l : List Subtitle) :
    (l.map some).filterMap id = l := by
  induction l with
  | nil => rfl
  | cons c t ih => simp [List.filterMap_cons, ih]

theorem decListOf_length (now : ℕ) (l : List Subtitle) :
    ∀ i, (decListOf now i l).length = l.length := by
  induction l with
  | nil => intro i; rfl
  | cons c t ih =>
    intro i
    show (decOf now i c :: decListOf now (i + 1) t).length = _
    rw [List.length_cons, ih (i + 1)]
    rfl

theorem decListOf_rel (now : ℕ) (l : List Subtitle) :
    ∀ i c, c ∈ l → ∃ d ∈ decListOf now i l,
      d.speaker = c.speaker ∧ d.text = c.text ∧
        d.startTime = c.startTime.map msQuant ∧ d.endTime = c.endTime.map msQuant := by
  induction l with
  | nil => intro i c hc; exact absurd hc (List.not_mem_nil c)
  | cons a t ih =>
    intro i c hc
    rcases List.mem_cons.mp hc with hc | hc
    · subst hc
      exact ⟨decOf now i c, List.mem_cons_self _ _, rfl, rfl, rfl, rfl⟩
    · obtain ⟨d, hd, hrel⟩ := ih (i + 1) c hc
      exact ⟨d, List.mem_cons_of_mem _ hd, hrel⟩

theorem parseSRT_encoded (now : ℕ) (ys : List Subtitle) (hne : ys ≠ [])
    (h : ∀ c ∈ ys, goodSub c = true) :
    parseSRT now (joinWith '\n' ((coreListOf 0 ys).map (fun p => p ++ ['\n']))) =
      .ok (decListOf now 0 ys) := by
  have hpieces : ∀ p ∈ coreListOf 0 ys, ∃ j c, c ∈ ys ∧ p = coreOf j c :=
    coreListOf_mem ys 0
  have hpne : ∀ p ∈ coreListOf 0 ys, p ≠ [] := by
    intro p hp
    obtain ⟨j, c, _, hpc⟩ := hpieces p hp
    rw [hpc]
    exact coreOf_ne_nil j c
  have hpnice : ∀ p ∈ coreListOf 0 ys, NicePiece p := by
    intro p hp
    obtain ⟨j, c, hc, hpc⟩ := hpieces p hp
    rw [hpc]
    exact nice_coreOf j c (h c hc)
  have hplast : ∀ p ∈ coreListOf 0 ys, p ≠ [] ∧ isJsWs (p.getLastD 'x') = false := by
    intro p hp
    obtain ⟨j, c, hc, hpc⟩ := hpieces p hp
    rw [hpc]
    exact ⟨coreOf_ne_nil j c, coreOf_last_nonws j c (h c hc)⟩
  have hclne : coreListOf 0 ys ≠ [] := coreListOf_ne_nil ys 0 hne
  have hitne : interTwo (coreListOf 0 ys) ≠ [] := interTwo_ne_nil _ hclne hpne
  have hjoin := joinWith_blocks (coreListOf 0 ys) hclne
  have hhead : isJsWs ((interTwo (coreListOf 0 ys)).headD 'x') = false := by
    cases hcl : coreListOf 0 ys with
    | nil => exact absurd hcl hclne
    | cons p t =>
      rw [interTwo_headD p t (hpne p (hcl ▸ List.mem_cons_self p t))]
      exact (hpnice p (hcl ▸ List.mem_cons_self p t)).2.1
  have htrim : jsTrim (interTwo (coreListOf 0 ys) ++ ['\n']) = interTwo (coreListOf 0 ys) :=
    jsTrim_of_clean _ hitne hhead (interTwo_last_nonws _ hclne hplast)
  unfold parseSRT
  rw [hjoin, htrim, splitBlocks_interTwo _ hclne hpnice,
    decListOf_map_some_parse now ys 0 h]
  show Except.ok (((decListOf now 0 ys).map some).filterMap id) = _
  rw [filterMap_id_map_some]

/-! ### Claim C1: SRT round-trip -/

/-- Claim C1 (amended): for every Caption collection whose entries have real
times in `[0, 86400)` with `startTime <= endTime`, non-empty newline-free
text that neither starts nor ends with whitespace, a non-empty colon-free
newline-free speaker when one is present, and colon-free text when no
speaker is present, decoding the SRT text produced by encoding the
collection succeeds and yields a collection of the same size that
reproduces `speaker` and `text` of every caption exactly and `startTime`
and `endTime` within 1 millisecond. -/
theorem parseSRT_convertToSRT_roundTrip (now : ℕ) (x : List Subtitle)
    (hx : ∀ c ∈ x, goodSub c = true) :
    ∃ enc dec, convertToSRT x = .ok enc ∧ parseSRT now enc = .ok dec ∧
      dec.length = x.length ∧
      ∀ c ∈ x, ∃ d ∈ dec,
        d.speaker = c.speaker ∧ d.text = c.text ∧
        (∃ qs qs2, c.startTime = some qs ∧ d.startTime = some qs2 ∧
          |qs2 - qs| ≤ 1 / 1000) ∧
        (∃ qe qe2, c.endTime = some qe ∧ d.endTime = some qe2 ∧
          |qe2 - qe| ≤ 1 / 1000) := by
  by_cases hxe : x = []
  · subst hxe
    refine ⟨[], [], rfl, rfl, rfl, ?_⟩
    intro c hc
    exact absurd hc (List.not_mem_nil c)
  · have hysg : ∀ c ∈ sortByStart x, goodSub c = true :=
      fun c hc => hx c ((mem_sortByStart x c).mp hc)
    have hysne : sortByStart x ≠ [] := by
      intro hnil
      apply hxe
      have hlen := sortByStart_length x
      rw [hnil] at hlen
      exact List.eq_nil_of_length_eq_zero hlen.symm
    refine ⟨_, _, convertToSRT_good x hx,
      parseSRT_encoded now (sortByStart x) hysne hysg, ?_, ?_⟩
    · rw [decListOf_length now (sortByStart x) 0, sortByStart_length x]
    · intro c hc
      have hcys : c ∈ sortByStart x := (mem_sortByStart x c).mpr hc
      obtain ⟨d, hd, h1, h2, h3, h4⟩ := decListOf_rel now (sortByStart x) 0 c hcys
      obtain ⟨qs, qe, hqs, hqe, hs0, hle, he1, _⟩ := goodSub_spec c (hx c hc)
      refine ⟨d, hd, h1, h2, ⟨qs, msQuant qs, hqs, ?_, msQuant_close qs⟩,
        ⟨qe, msQuant qe, hqe, ?_, msQuant_close qe⟩⟩
      · rw [h3, hqs]; rfl
      · rw [h4, hqe]; rfl

/-- Claim C1 (witness): the round-trip theorem applied to a concrete
two-caption collection. -/
theorem parseSRT_convertToSRT_roundTrip_witness :
    ∃ enc dec,
      convertToSRT [witSub1, witSub2] = .ok enc ∧
      parseSRT 0 enc = .ok dec ∧ dec.length = 2 ∧
      ∀ c ∈ [witSub1, witSub2], ∃ d ∈ dec,
        d.speaker = c.speaker ∧ d.text = c.text ∧
        (∃ qs qs2, c.startTime = some qs ∧ d.startTime = some qs2 ∧
          |qs2 - qs| ≤ 1 / 1000) ∧
        (∃ qe qe2, c.endTime = some qe ∧ d.endTime = some qe2 ∧
          |qe2 - qe| ≤ 1 / 1000) := by
  have hlen : ([witSub1, witSub2] : List Subtitle).length = 2 := rfl
  have h := parseSRT_convertToSRT_roundTrip 0 [witSub1, witSub2] ?_
  · obtain ⟨enc, dec, he, hp, hl, hall⟩ := h
    exact ⟨enc, dec, he, hp, by rw [hl]; rfl, hall⟩
  · intro c hc
    rcases List.mem_cons.mp hc with hc | hc
    · subst hc
      unfold goodSub witSub1
      norm_num
      decide
    rcases List.mem_cons.mp hc with hc | hc
    · subst hc
      unfold goodSub witSub2
      norm_num
      decide
    · exact absurd hc (List.not_mem_nil c)

theorem tcQ_zero : tcQ (0 : ℚ) = "00:00:00,000".data := by
  have h1 : tcQ (0 : ℚ) = tcN 0 0 := by
    unfold tcQ
    norm_num
  rw [h1]
  decide

theorem tcQ_one : tcQ (1 : ℚ) = "00:00:01,000".data := by
  have h1 : tcQ (1 : ℚ) = tcN 1 0 := by
    unfold tcQ
    norm_num
  rw [h1]
  decide

theorem timeToSec_zero : timeToSec ("00:00:00,000".data) = some 0 := by
  have h := timeToSec_tcN 0 0 (by norm_num) (by norm_num)
  have he : tcN 0 0 = "00:00:00,000".data := by decide
  rw [he] at h
  rw [h]
  norm_num

theorem timeToSec_one : timeToSec ("00:00:01,000".data) = some 1 := by
  have h := timeToSec_tcN 1 0 (by norm_num) (by norm_num)
  have he : tcN 1 0 = "00:00:01,000".data := by decide
  rw [he] at h
  rw [h]
  norm_num

/-- Claim C1 (counterexample): the caption with text `"a: b"` and no
speaker has non-negative times with `startTime <= endTime` and text free of
blank-line sequences, yet decoding its encoding yields a caption with
speaker `"a"` and text `"b"`: the colon-prefix heuristic makes the
round-trip lossy, refuting the claim as stated. -/
theorem parseSRT_convertToSRT_roundTrip_fails :
    (convertToSRT [ceSub]).bind (parseSRT 0) =
      .ok [{ id := "srt-0-0".data, startTime := some 0, endTime := some 1,
             speaker := some ("a".data), text := "b".data }] ∧
    ceSub.startTime = some 0 ∧ ceSub.endTime = some 1 ∧ (0 : ℚ) ≤ 0 ∧ (0 : ℚ) ≤ 1 ∧
    ceSub.speaker = none ∧ ceSub.text = "a: b".data ∧
    ("b".data ≠ "a: b".data) ∧ ((some ("a".data) : Option (List Char)) ≠ none) := by
  have hb : srtBlock 0 ceSub =
      .ok ("1\n00:00:00,000 --> 00:00:01,000\na: b\n".data) := by
    unfold srtBlock
    have hs : ceSub.startTime = some (0 : ℚ) := rfl
    have he2 : ceSub.endTime = some (1 : ℚ) := rfl
    rw [hs, he2, formatTime_ok 0 le_rfl (by norm_num),
      formatTime_ok 1 (by norm_num) (by norm_num)]
    show Except.ok _ = Except.ok _
    congr 1
    rw [tcQ_zero, tcQ_one]
    decide
  have henc : convertToSRT [ceSub] =
      .ok ("1\n00:00:00,000 --> 00:00:01,000\na: b\n".data) := by
    unfold convertToSRT
    have hsort : sortByStart [ceSub] = [ceSub] := rfl
    rw [hsort]
    have hbl : srtBlocks 0 [ceSub] =
        .ok ["1\n00:00:00,000 --> 00:00:01,000\na: b\n".data] := by
      unfold srtBlocks
      rw [hb]
      rfl
    rw [hbl]
    rfl
  have hshape : "1\n00:00:00,000 --> 00:00:01,000\na: b".data =
      "1".data ++ '\n' ::
        (("00:00:00,000".data ++ (' ' :: (['-', '-', '>'] ++ [' '])) ++
            "00:00:01,000".data) ++ '\n' :: "a: b".data) := by
    decide
  have hdec : decodeBlock 0 0 ("1\n00:00:00,000 --> 00:00:01,000\na: b".data) =
      .ok (some { id := "srt-0-0".data, startTime := some 0, endTime := some 1,
                  speaker := some ("a".data), text := "b".data }) := by
    rw [hshape,
      decodeBlock_three 0 0 _ _ _ (by decide) (by decide) (by decide)
        ("00:00:00,000".data) ("00:00:01,000".data) rfl (by decide) (by decide)]
    rw [timeToSec_zero, timeToSec_one]
    have hspk : speakerOf ("a: b".data) = some ("a".data) := by decide
    rw [hspk]
    have hstrip : stripSpkr ("a: b".data) = "b".data := by decide
    rw [hstrip]
    rfl
  have hparse : parseSRT 0 ("1\n00:00:00,000 --> 00:00:01,000\na: b\n".data) =
      .ok [{ id := "srt-0-0".data, startTime := some 0, endTime := some 1,
             speaker := some ("a".data), text := "b".data }] := by
    unfold parseSRT
    have hblocks : splitBlocks
        (jsTrim ("1\n00:00:00,000 --> 00:00:01,000\na: b\n".data)) =
        ["1\n00:00:00,000 --> 00:00:01,000\na: b".data] := by decide
    rw [hblocks]
    unfold parseBlocks
    rw [hdec]
    rfl
  refine ⟨?_, rfl, rfl, le_rfl, by norm_num, rfl, rfl, by decide, by decide⟩
  rw [henc]
  exact hparse

/-! ### Claim C2: speaker-prefix heuristic -/

theorem dropWhile_head_not (p : Char → Bool) (l : List Char) :
    ∀ c t, l.dropWhile p = c :: t → p c = false := by
  induction l with
  | nil => intro c t h; exact absurd h (by simp)
  | cons a l2 ih =>
    intro c t h
    rw [List.dropWhile_cons] at h
    by_cases hp : p a
    · simp only [hp, if_true] at h
      exact ih c t h
    · simp only [hp, if_false] at h
      injection h with h1 _
      rw [← h1]
      simpa using hp

theorem speakerOf_none_of_no_pfx (payload : List Char)
    (hnp : ∀ pre rest, payload = pre ++ ':' :: rest → pre = []) :
    speakerOf payload = none := by
  unfold speakerOf
  by_cases hpre : payload.takeWhile (fun c => c != ':') = []
  · rw [if_pos hpre]
  · rw [if_neg hpre]
    by_cases hlen : (payload.takeWhile (fun c => c != ':')).length = payload.length
    · rw [if_pos hlen]
    · exfalso
      have hsplit := List.takeWhile_append_dropWhile (p := fun c => c != ':') (l := payload)
      cases hdw : payload.dropWhile (fun c => c != ':') with
      | nil =>
        apply hlen
        rw [hdw, List.append_nil] at hsplit
        rw [hsplit]
      | cons c t =>
        have hc : (c != ':') = false := dropWhile_head_not _ _ c t hdw
        have hcc : c = ':' := by simpa using hc
        have hdecomp : payload = payload.takeWhile (fun c => c != ':') ++ ':' :: t := by
          conv_lhs => rw [← hsplit]
          rw [hdw, hcc]
        exact hpre (hnp _ t hdecomp)

/-- Claim C2: decoding a well-formed SRT block whose joined text payload
matches the regular expression of a colon-terminated prefix (a non-empty
run of non-colon characters followed by a colon) yields that prefix as the
`speaker` and the payload with the prefix, the colon and any
immediately-following whitespace removed as the `text`; a payload with no
such prefix yields no speaker and the unchanged payload as `text`.  In
particular the block with text line `Model 1 (F): Hello there` decodes to
speaker `Model 1 (F)` and text `Hello there`, and the block with text line
`Hello there` decodes to no speaker and text `Hello there`. -/
theorem parseSRT_speaker_heuristic :
    (∀ now i payload, '\n' ∉ payload →
      (∀ pre rest, payload = pre ++ ':' :: rest → pre ≠ [] → ':' ∉ pre →
        decodeBlock now i (blockWith payload) = .ok (some
          { id := mkSrtId now i, startTime := some 0, endTime := some 1,
            speaker := some pre, text := rest.dropWhile isJsWs })) ∧
      ((∀ pre rest, payload = pre ++ ':' :: rest → pre = []) →
        decodeBlock now i (blockWith payload) = .ok (some
          { id := mkSrtId now i, startTime := some 0, endTime := some 1,
            speaker := none, text := payload }))) ∧
    parseSRT 0 ("1\n00:00:00,000 --> 00:00:01,000\nModel 1 (F): Hello there".data) =
      .ok [{ id := mkSrtId 0 0, startTime := some 0, endTime := some 1,
             speaker := some ("Model 1 (F)".data), text := "Hello there".data }] ∧
    parseSRT 0 ("1\n00:00:00,000 --> 00:00:01,000\nHello there".data) =
      .ok [{ id := mkSrtId 0 0, startTime := some 0, endTime := some 1,
             speaker := none, text := "Hello there".data }] := by
  have hgen : ∀ now i payload, '\n' ∉ payload →
      decodeBlock now i (blockWith payload) = .ok (some
        { id := mkSrtId now i, startTime := some 0, endTime := some 1,
          speaker := speakerOf payload,
          text := match speakerOf payload with
            | some _ => stripSpkr payload
            | none => payload }) := by
    intro now i payload hnl
    unfold blockWith
    rw [decodeBlock_three now i _ _ _ (by decide) (by decide) hnl
      ("00:00:00,000".data) ("00:00:01,000".data) rfl (by decide) (by decide),
      timeToSec_zero, timeToSec_one]
  refine ⟨?_, ?_, ?_⟩
  · intro now i payload hnl
    constructor
    · intro pre rest hdecomp hpre hnc
      rw [hgen now i payload hnl]
      rw [hdecomp, speakerOf_prefix pre rest hpre hnc, stripSpkr_pfx pre rest hnc]
    · intro hnp
      rw [hgen now i payload hnl]
      rw [speakerOf_none_of_no_pfx payload hnp]
  · have hblocks : splitBlocks (jsTrim
        ("1\n00:00:00,000 --> 00:00:01,000\nModel 1 (F): Hello there".data)) =
        [blockWith ("Model 1 (F): Hello there".data)] := by decide
    unfold parseSRT
    rw [hblocks]
    unfold parseBlocks
    rw [hgen 0 0 _ (by decide)]
    have hs : speakerOf ("Model 1 (F): Hello there".data) = some ("Model 1 (F)".data) := by
      decide
    rw [hs]
    have hst : stripSpkr ("Model 1 (F): Hello there".data) = "Hello there".data := by decide
    rw [hst]
    rfl
  · have hblocks : splitBlocks (jsTrim
        ("1\n00:00:00,000 --> 00:00:01,000\nHello there".data)) =
        [blockWith ("Hello there".data)] := by decide
    unfold parseSRT
    rw [hblocks]
    unfold parseBlocks
    rw [hgen 0 0 _ (by decide)]
    have hs : speakerOf ("Hello there".data) = none := by decide
    rw [hs]
    rfl

/-- Claim C2 (witness): the heuristic theorem applied to the concrete
payload `Model 1 (F): Hello there` (with its colon decomposition) and to
the colon-free payload `Hello there`. -/
theorem parseSRT_speaker_heuristic_witness :
    decodeBlock 5 3 (blockWith ("Model 1 (F): Hello there".data)) = .ok (some
      { id := mkSrtId 5 3, startTime := some 0, endTime := some 1,
        speaker := some ("Model 1 (F)".data), text := "Hello there".data }) ∧
    decodeBlock 5 3 (blockWith ("Hello there".data)) = .ok (some
      { id := mkSrtId 5 3, startTime := some 0, endTime := some 1,
        speaker := none, text := "Hello there".data }) := by
  constructor
  · have h := (parseSRT_speaker_heuristic.1 5 3 ("Model 1 (F): Hello there".data)
      (by decide)).1 ("Model 1 (F)".data) (" Hello there".data) (by decide)
      (by decide) (by decide)
    rw [h]
    have hd : (" Hello there".data).dropWhile isJsWs = "Hello there".data := by decide
    rw [hd]
  · refine (parseSRT_speaker_heuristic.1 5 3 ("Hello there".data) (by decide)).2 ?_
    intro pre rest h
    exfalso
    have hcm : ':' ∈ "Hello there".data := by
      rw [h]
      exact List.mem_append.mpr (Or.inr (List.mem_cons_self ':' rest))
    revert hcm
    decide

/-! ### Claim C3: timecode arithmetic -/

theorem timeToSec_fields (a b c m : ℕ) (ha : a < 100) (hb : b < 100)
    (hc : c < 100) (hm : m < 1000) :
    timeToSec (pad2 a ++ ':' :: pad2 b ++ ':' :: pad2 c ++
        ',' :: padStart 3 '0' (natRepr m)) =
      some ((a : ℚ) * 3600 + (b : ℚ) * 60 + (c : ℚ) + (m : ℚ) / 1000) := by
  have hshape : pad2 a ++ ':' :: pad2 b ++ ':' :: pad2 c ++
      ',' :: padStart 3 '0' (natRepr m) =
      (pad2 a ++ ':' :: pad2 b ++ ':' :: pad2 c) ++ [','] ++
        padStart 3 '0' (natRepr m) := by
    simp [List.append_assoc]
  have hnoc : ',' ∉ pad2 a ++ ':' :: pad2 b ++ ':' :: pad2 c := by
    intro hmem
    simp only [List.append_assoc, List.cons_append] at hmem
    rcases List.mem_append.mp hmem with h | h
    · exact absurd rfl (isDig_facts (pad2_digits a ha _ h)).2.2.2.1
    rcases List.mem_cons.mp h with h | h
    · exact absurd h (by decide)
    rcases List.mem_append.mp h with h | h
    · exact absurd rfl (isDig_facts (pad2_digits b hb _ h)).2.2.2.1
    rcases List.mem_cons.mp h with h | h
    · exact absurd h (by decide)
    · exact absurd rfl (isDig_facts (pad2_digits c hc _ h)).2.2.2.1
  have hnoc2 : ',' ∉ padStart 3 '0' (natRepr m) := by
    intro hmem
    exact absurd rfl (isDig_facts (pad3_digits m hm _ hmem)).2.2.2.1
  unfold timeToSec
  rw [hshape, splitOnL_boundary ',' [] _ _ hnoc, splitOnL_no_occ ',' [] _ hnoc2]
  simp only [List.getD, List.get?, Option.getD_some]
  rw [splitOnL_colon_hms a b c ha hb hc]
  simp only [List.get?]
  simp only [jsNumberU, parseIntU]
  rw [jsNumber_digits _ (pad2_ne_nil _ ha) (pad2_digits _ ha),
    jsNumber_digits _ (pad2_ne_nil _ hb) (pad2_digits _ hb),
    jsNumber_digits _ (pad2_ne_nil _ hc) (pad2_digits _ hc),
    parseIntJs_digits _ (pad3_ne_nil m hm) (pad3_digits m hm)]
  rw [pad2_val _ ha, pad2_val _ hb, pad2_val _ hc, pad3_val m hm]
  unfold nMul nAdd nDivC
  show some _ = some _
  congr 1
  ring

/-- Claim C3: timecode decoding computes
`hours * 3600 + minutes * 60 + seconds + milliseconds / 1000` after
splitting on the comma and the colons, so `00:01:05,250` decodes to `65.25`
seconds; conversely `formatTime` encodes `65.25` seconds as
`00:01:05,250`. -/
theorem timecode_codec :
    (∀ a b c m : ℕ, a < 100 → b < 100 → c < 100 → m < 1000 →
      timeToSec (pad2 a ++ ':' :: pad2 b ++ ':' :: pad2 c ++
          ',' :: padStart 3 '0' (natRepr m)) =
        some ((a : ℚ) * 3600 + (b : ℚ) * 60 + (c : ℚ) + (m : ℚ) / 1000)) ∧
    timeToSec ("00:01:05,250".data) = some (261 / 4 : ℚ) ∧
    formatTime (some (261 / 4 : ℚ)) = .ok ("00:01:05,250".data) := by
  refine ⟨timeToSec_fields, ?_, ?_⟩
  · have hshape : "00:01:05,250".data = pad2 0 ++ ':' :: pad2 1 ++ ':' :: pad2 5 ++
        ',' :: padStart 3 '0' (natRepr 250) := by decide
    rw [hshape, timeToSec_fields 0 1 5 250 (by norm_num) (by norm_num) (by norm_num)
      (by norm_num)]
    norm_num
  · have hq0 : (0 : ℚ) ≤ 261 / 4 := by norm_num
    have hq1 : (261 / 4 : ℚ) < 86400 := by norm_num
    rw [formatTime_ok _ hq0 hq1]
    have hfl : ⌊(261 / 4 : ℚ)⌋ = 65 := by
      rw [Int.floor_eq_iff]
      norm_num
    have htq : tcQ (261 / 4 : ℚ) = tcN 65 250 := by
      unfold tcQ
      rw [hfl]
      have hms2 : ⌊((261 / 4 : ℚ) - ((65 : ℤ) : ℚ)) * 1000⌋ = 250 := by
        have he : ((261 / 4 : ℚ) - ((65 : ℤ) : ℚ)) * 1000 = ((250 : ℤ) : ℚ) := by
          norm_num
        rw [he, Int.floor_intCast]
      rw [hms2]
      decide
    rw [htq]
    congr 1

/-- Claim C3 (witness): the decoding formula applied at hours 0, minutes 1,
seconds 5, milliseconds 250. -/
theorem timecode_codec_witness :
    timeToSec (pad2 0 ++ ':' :: pad2 1 ++ ':' :: pad2 5 ++
        ',' :: padStart 3 '0' (natRepr 250)) =
      some ((0 : ℚ) * 3600 + (1 : ℚ) * 60 + (5 : ℚ) + (250 : ℚ) / 1000) := by
  have h := timecode_codec.1 0 1 5 250 (by norm_num) (by norm_num) (by norm_num)
    (by norm_num)
  rw [h]
  norm_num

/-! ### Claims C7 and C8: failure as a unit, tolerant dropping -/

theorem decodeBlock_error_iff (now i : ℕ) (b : List Char) :
    decodeBlock now i b = .error () ↔ BlockThrows b := by
  have harr2 : (" --> ".data) = [' ', '-', '-', '>', ' '] := by decide
  unfold decodeBlock BlockThrows
  rw [harr2]
  by_cases hlen : (splitOnL ['\n'] b).length < 3
  · rw [if_pos hlen]
    simp only [reduceCtorEq, false_iff, not_and]
    intro h3
    omega
  · rw [if_neg hlen]
    dsimp only
    split
    · rename_i hget
      simp only [true_iff]
      refine ⟨by omega, ?_⟩
      have := List.get?_eq_none.mp hget
      omega
    · rename_i e hget
      simp only [reduceCtorEq, false_iff, not_and]
      intro _
      obtain ⟨hlt, -⟩ := List.get?_eq_some.mp hget
      omega

theorem parseBlocks_error_iff (now : ℕ) :
    ∀ bs i, parseBlocks now i bs = .error () ↔ ∃ b ∈ bs, BlockThrows b := by
  intro bs
  induction bs with
  | nil =>
    intro i
    constructor
    · intro h; exact absurd h (by simp [parseBlocks])
    · rintro ⟨b, hb, _⟩; exact absurd hb (List.not_mem_nil b)
  | cons b bs ih =>
    intro i
    unfold parseBlocks
    cases hd : decodeBlock now i b with
    | error e =>
      cases e
      simp only [true_iff]
      exact ⟨b, List.mem_cons_self b bs, (decodeBlock_error_iff now i b).mp hd⟩
    | ok s =>
      cases hr : parseBlocks now (i + 1) bs with
      | error e =>
        cases e
        simp only [true_iff]
        obtain ⟨b2, hb2, ht⟩ := (ih (i + 1)).mp hr
        exact ⟨b2, List.mem_cons_of_mem b hb2, ht⟩
      | ok rest =>
        simp only [reduceCtorEq, false_iff]
        rintro ⟨b2, hb2, ht⟩
        rcases List.mem_cons.mp hb2 with hb2 | hb2
        · subst hb2
          have := (decodeBlock_error_iff now i b2).mpr ht
          rw [hd] at this
          exact absurd this (by simp)
        · have := (ih (i + 1)).mpr ⟨b2, hb2, ht⟩
          rw [hr] at this
          exact absurd this (by simp)

/-- Claim C7: if decoding any block of the input raises an exception (the
timecode line of a block with at least 3 lines lacks the " --> "
separator, the only statement in the block decoder that can throw), the
whole SRT decode fails as a unit and produces no caption collection at
all; a successful decode certifies that no block threw, so no partially
parsed result is ever returned. -/
theorem parseSRT_fails_as_unit :
    ∀ now content,
      ((∃ b ∈ splitBlocks (jsTrim content), BlockThrows b) →
        parseSRT now content = .error ()) ∧
      (∀ l, parseSRT now content = .ok l →
        ∀ b ∈ splitBlocks (jsTrim content), ¬ BlockThrows b) := by
  intro now content
  constructor
  · intro hex
    unfold parseSRT
    rw [(parseBlocks_error_iff now (splitBlocks (jsTrim content)) 0).mpr hex]
  · intro l hok b hb ht
    have herr := (parseBlocks_error_iff now (splitBlocks (jsTrim content)) 0).mpr
      ⟨b, hb, ht⟩
    unfold parseSRT at hok
    rw [herr] at hok
    exact absurd hok (by simp)

/-- Claim C7 (witness): a block whose timecode line has no " --> "
separator makes the whole decode fail. -/
theorem parseSRT_fails_as_unit_witness :
    parseSRT 0 ("1\n00:00:00,000\nhello".data) = .error () :=
  (parseSRT_fails_as_unit 0 ("1\n00:00:00,000\nhello".data)).1 (by decide)

theorem decodeBlock_ok_cases (now i : ℕ) (b : List Char) (s : Option Subtitle)
    (h : decodeBlock now i b = .ok s) :
    (3 ≤ (splitOnL ['\n'] b).length ∧ s.isSome = true) ∨
      ((splitOnL ['\n'] b).length < 3 ∧ s = none) := by
  have harr2 : (" --> ".data) = [' ', '-', '-', '>', ' '] := by decide
  unfold decodeBlock at h
  rw [harr2] at h
  by_cases hlen : (splitOnL ['\n'] b).length < 3
  · rw [if_pos hlen] at h
    injection h with h1
    exact Or.inr ⟨hlen, h1.symm⟩
  · rw [if_neg hlen] at h
    dsimp only at h
    split at h
    · exact absurd h (by simp)
    · injection h with h1
      rw [← h1]
      exact Or.inl ⟨by omega, rfl⟩

theorem parseBlocks_filter_length (now : ℕ) :
    ∀ bs i l, parseBlocks now i bs = .ok l →
      (l.filterMap id).length =
        (bs.filter (fun b => decide (3 ≤ (splitOnL ['\n'] b).length))).length := by
  intro bs
  induction bs with
  | nil =>
    intro i l h
    unfold parseBlocks at h
    injection h with h1
    rw [← h1]
    rfl
  | cons b bs ih =>
    intro i l h
    unfold parseBlocks at h
    cases hd : decodeBlock now i b with
    | error e => rw [hd] at h; exact absurd h (by simp)
    | ok s =>
      rw [hd] at h
      cases hr : parseBlocks now (i + 1) bs with
      | error e => rw [hr] at h; exact absurd h (by simp)
      | ok rest =>
        rw [hr] at h
        injection h with h1
        rw [← h1]
        rcases decodeBlock_ok_cases now i b s hd with ⟨h3, hsome⟩ | ⟨h3, hnone⟩
        · obtain ⟨st, hst⟩ := Option.isSome_iff_exists.mp hsome
          rw [List.filter_cons, if_pos (by simpa using h3), hst]
          simp only [List.filterMap_cons, id, List.length_cons]
          rw [ih (i + 1) rest hr]
        · rw [List.filter_cons, if_neg (by simpa using h3), hnone]
          simp only [List.filterMap_cons, id]
          exact ih (i + 1) rest hr

/-- Claim C8: when no block of the input throws (in particular whenever
there are only well-formed and too-short blocks), the decode succeeds and
produces exactly one caption per block with at least 3 lines: blocks with
fewer than 3 lines are silently dropped while every remaining block of the
same input is still decoded. -/
theorem parseSRT_drops_short_blocks :
    ∀ now content, (∀ b ∈ splitBlocks (jsTrim content), ¬ BlockThrows b) →
      ∃ l, parseSRT now content = .ok l ∧
        l.length = ((splitBlocks (jsTrim content)).filter
          (fun b => decide (3 ≤ (splitOnL ['\n'] b).length))).length := by
  intro now content hno
  unfold parseSRT
  cases hp : parseBlocks now 0 (splitBlocks (jsTrim content)) with
  | error e =>
    cases e
    obtain ⟨b, hb, ht⟩ := (parseBlocks_error_iff now _ 0).mp hp
    exact absurd ht (hno b hb)
  | ok l0 =>
    exact ⟨l0.filterMap id, rfl, parseBlocks_filter_length now _ 0 l0 hp⟩

/-- Claim C8 (witness): an input with one well-formed block and one 2-line
block decodes successfully to a single caption. -/
theorem parseSRT_drops_short_blocks_witness :
    ∃ l, parseSRT 0
        ("1\n00:00:00,000 --> 00:00:01,000\nhi\n\n2\n00:00:02,000".data) = .ok l ∧
      l.length = 1 := by
  obtain ⟨l, hl, hlen⟩ := parseSRT_drops_short_blocks 0
    ("1\n00:00:00,000 --> 00:00:01,000\nhi\n\n2\n00:00:02,000".data) (by decide)
  refine ⟨l, hl, ?_⟩
  rw [hlen]
  decide

/-! ### Claim C4: audio window slicing -/

theorem replicate_drop (k m : ℕ) :
    (List.replicate m (0 : ℚ)).drop k = List.replicate (m - k) 0 := by
  induction k generalizing m with
  | zero => simp
  | succ k ih =>
    cases m with
    | zero => simp
    | succ m => simpa using ih m

theorem jsSubarray_nonneg (data : List ℚ) (s e : ℤ) (hs : 0 ≤ s) (he : 0 ≤ e) :
    jsSubarray data s e = srcSlice data s e := by
  unfold jsSubarray srcSlice
  dsimp only
  rw [if_neg (not_lt.mpr hs), if_neg (not_lt.mpr he)]

theorem srcSlice_length (data : List ℚ) (s e : ℤ) (hs : 0 ≤ s) :
    (srcSlice data s e).length =
      (min e (data.length : ℤ) - min s (data.length : ℤ)).toNat := by
  unfold srcSlice
  rw [List.length_take, List.length_drop]
  have h1 : min e (data.length : ℤ) ≤ (data.length : ℤ) := min_le_right _ _
  have h2 : min s (data.length : ℤ) ≤ (data.length : ℤ) := min_le_right _ _
  have h3 : 0 ≤ min s (data.length : ℤ) := le_min hs (by positivity)
  omega

/-- Claim C4 (amended): for a sample rate inside the Web Audio nominal
range and a window with `0 ≤ start` and `0 ≤ end` (`end` may exceed the
duration `D`), whenever the computed frame count
`max(0, floor(min(end,D)*R) - floor(start*R))` is positive the slice
succeeds and produces exactly that many single-channel frames: a prefix
copied verbatim from the clamped channel-0 window (so nothing past the
source buffer is read) followed by the zero fill of the fresh buffer.
When the frame count is zero — every zero-length or inverted window —
`createBuffer` throws `NotSupportedError`, so contrary to the original
claim such a window produces an error, not an empty buffer (see
`sliceBuffer_frames_fails`). -/
theorem sliceBuffer_frames :
    ∀ (buf : AudioBuffer) (tStart tEnd : ℚ) (s e : ℤ) (fc : ℕ),
      8000 ≤ buf.sampleRate → buf.sampleRate ≤ 96000 →
      0 ≤ tStart → 0 ≤ tEnd →
      s = ⌊tStart * buf.sampleRate⌋ →
      e = ⌊min tEnd buf.duration * buf.sampleRate⌋ →
      fc = (max 0 (e - s)).toNat →
      (0 < fc →
        ∃ out, sliceBuffer buf tStart tEnd = some out ∧
          out.sampleRate = buf.sampleRate ∧
          out.data.length = fc ∧
          out.data = srcSlice buf.data s e ++
            List.replicate (fc - (srcSlice buf.data s e).length) 0) ∧
      (fc = 0 → sliceBuffer buf tStart tEnd = none) := by
  intro buf tStart tEnd s e fc h8 h96 h0 h1 hs he hfc
  have hR : 0 < buf.sampleRate := lt_of_lt_of_le (by norm_num) h8
  have hs0 : 0 ≤ s := by
    rw [hs]
    exact Int.floor_nonneg.mpr (mul_nonneg h0 hR.le)
  have hd0 : 0 ≤ buf.duration := by
    unfold AudioBuffer.duration
    positivity
  have he0 : 0 ≤ e := by
    rw [he]
    exact Int.floor_nonneg.mpr (mul_nonneg (le_min h1 hd0) hR.le)
  have hlen := srcSlice_length buf.data s e hs0
  have hle : (srcSlice buf.data s e).length ≤ fc := by
    rw [hlen, hfc]
    have h2 : min e (buf.data.length : ℤ) ≤ (buf.data.length : ℤ) := min_le_right _ _
    have h3 : min s (buf.data.length : ℤ) ≤ s := min_le_left _ _
    have h4 : min e (buf.data.length : ℤ) ≤ e := min_le_left _ _
    have h5 : 0 ≤ min s (buf.data.length : ℤ) := le_min hs0 (by positivity)
    omega
  have hset : typedSet (List.replicate fc 0) (srcSlice buf.data s e) =
      some (srcSlice buf.data s e ++
        List.replicate (fc - (srcSlice buf.data s e).length) 0) := by
    unfold typedSet
    rw [List.length_replicate, if_pos hle, replicate_drop]
  constructor
  · intro hpos
    have hcond : ¬ (fc = 0 ∨ buf.sampleRate < 8000 ∨ 96000 < buf.sampleRate) := by
      push_neg
      exact ⟨by omega, h8, h96⟩
    have hrun : sliceBuffer buf tStart tEnd =
        some { sampleRate := buf.sampleRate,
               data := srcSlice buf.data s e ++
                 List.replicate (fc - (srcSlice buf.data s e).length) 0 } := by
      unfold sliceBuffer
      dsimp only
      rw [← hs, ← he, ← hfc, if_neg hcond,
        jsSubarray_nonneg buf.data s e hs0 he0, hset]
      rfl
    refine ⟨_, hrun, rfl, ?_, rfl⟩
    simp only [List.length_append, List.length_replicate]
    omega
  · intro hfc0
    unfold sliceBuffer
    dsimp only
    rw [← hs, ← he, ← hfc, if_pos (Or.inl hfc0)]

/-- Claim C4 (counterexample): a zero-length window throws instead of
yielding an empty buffer.  The window `[0, 0]` of a 44100 Hz source has
frame count zero, so `audioCtx.createBuffer(1, 0, 44100)` throws
`NotSupportedError` — the Web Audio spec mandates the throw for a zero
length, and 44100 Hz lies inside every conforming implementation's
nominal range — refuting the claim that a zero-length or inverted window
yields an empty (zero-frame) buffer rather than an error. -/
theorem sliceBuffer_frames_fails :
    sliceBuffer { sampleRate := 44100, data := [0, 0, 0] } 0 0 = none := by
  have hdur : AudioBuffer.duration { sampleRate := 44100, data := [0, 0, 0] } =
      3 / 44100 := by
    unfold AudioBuffer.duration
    norm_num
  have h1 : ⌊(0 : ℚ) * 44100⌋ = 0 := by norm_num
  have h2 : ⌊min (0 : ℚ) (3 / 44100) * 44100⌋ = 0 := by
    rw [min_eq_left (by norm_num)]
    norm_num
  unfold sliceBuffer
  dsimp only
  rw [hdur, h1, h2]
  rfl

/-- Claim C4 (witness): slicing `[10, 1000]` seconds of a 12-second
44100 Hz source yields `floor(2 * 44100) = 88200` frames. -/
theorem sliceBuffer_frames_witness :
    ∃ out, sliceBuffer { sampleRate := 44100, data := List.replicate 529200 0 }
        10 1000 = some out ∧ out.data.length = 88200 := by
  have hdur : AudioBuffer.duration
      { sampleRate := 44100, data := List.replicate 529200 0 } = 12 := by
    unfold AudioBuffer.duration
    simp only [List.length_replicate]
    norm_num
  obtain ⟨hpos, -⟩ :=
    sliceBuffer_frames { sampleRate := 44100, data := List.replicate 529200 0 }
      10 1000 441000 529200 88200 (by norm_num) (by norm_num) (by norm_num)
      (by norm_num) (by norm_num)
      (by rw [hdur]; norm_num)
      (by decide)
  obtain ⟨out, hrun, -, hlen, -⟩ := hpos (by norm_num)
  exact ⟨out, hrun, by rw [hlen]⟩

/-! ### Claims C5 and C10: WAV container layout -/

theorem sampleBytes_length (x : ℚ) : (sampleBytes x).length = 2 := rfl

theorem flatMap_sampleBytes_length (l : List ℚ) :
    (l.flatMap sampleBytes).length = 2 * l.length := by
  induction l with
  | nil => rfl
  | cons x xs ih =>
    simp only [List.flatMap_cons, List.length_append, sampleBytes_length, ih,
      List.length_cons]
    omega

theorem wav_length (buf : AudioBuffer) :
    (audioBufferToWav buf).length = 44 + 2 * buf.data.length := by
  unfold audioBufferToWav
  dsimp only
  simp only [List.length_append, strBytes, List.length_map, u32le, u16le,
    List.length_cons, List.length_nil, flatMap_sampleBytes_length]

theorem read16_bytes (w : List ℕ) (off v : ℕ)
    (h0 : w.getD off 0 = v % 256) (h1 : w.getD (off + 1) 0 = v / 256 % 256) :
    read16 w off = v % 65536 := by
  unfold read16
  rw [h0, h1]
  omega

theorem read32_bytes (w : List ℕ) (off v : ℕ)
    (h0 : w.getD off 0 = v % 256) (h1 : w.getD (off + 1) 0 = v / 256 % 256)
    (h2 : w.getD (off + 2) 0 = v / 65536 % 256)
    (h3 : w.getD (off + 3) 0 = v / 16777216 % 256) :
    read32 w off = v % 4294967296 := by
  unfold read32
  rw [h0, h1, h2, h3]
  omega

theorem qToUint32_natCast (R : ℕ) : qToUint32 ((R : ℕ) : ℚ) = R % 4294967296 := by
  unfold qToUint32 jsTrunc
  rw [if_neg (not_lt.mpr (by positivity : (0 : ℚ) ≤ (R : ℚ))), Int.floor_natCast]
  show (((R : ℤ) % 4294967296).toNat) = R % 4294967296
  omega

theorem wavByte4 (buf : AudioBuffer) :
    (audioBufferToWav buf).getD 4 0 = (32 + buf.data.length * 2) % 256 := rfl

theorem wavByte5 (buf : AudioBuffer) :
    (audioBufferToWav buf).getD 5 0 = (32 + buf.data.length * 2) / 256 % 256 := rfl

theorem wavByte6 (buf : AudioBuffer) :
    (audioBufferToWav buf).getD 6 0 = (32 + buf.data.length * 2) / 65536 % 256 := rfl

theorem wavByte7 (buf : AudioBuffer) :
    (audioBufferToWav buf).getD 7 0 = (32 + buf.data.length * 2) / 16777216 % 256 := rfl

theorem wavByte16 (buf : AudioBuffer) :
    (audioBufferToWav buf).getD 16 0 = 16 % 256 := rfl

theorem wavByte17 (buf : AudioBuffer) :
    (audioBufferToWav buf).getD 17 0 = 16 / 256 % 256 := rfl

theorem wavByte18 (buf : AudioBuffer) :
    (audioBufferToWav buf).getD 18 0 = 16 / 65536 % 256 := rfl

theorem wavByte19 (buf : AudioBuffer) :
    (audioBufferToWav buf).getD 19 0 = 16 / 16777216 % 256 := rfl

theorem wavByte20 (buf : AudioBuffer) :
    (audioBufferToWav buf).getD 20 0 = 1 % 256 := rfl

theorem wavByte21 (buf : AudioBuffer) :
    (audioBufferToWav buf).getD 21 0 = 1 / 256 % 256 := rfl

theorem wavByte22 (buf : AudioBuffer) :
    (audioBufferToWav buf).getD 22 0 = 1 % 256 := rfl

theorem wavByte23 (buf : AudioBuffer) :
    (audioBufferToWav buf).getD 23 0 = 1 / 256 % 256 := rfl

theorem wavByte24 (buf : AudioBuffer) :
    (audioBufferToWav buf).getD 24 0 = (qToUint32 buf.sampleRate) % 256 := rfl

theorem wavByte25 (buf : AudioBuffer) :
    (audioBufferToWav buf).getD 25 0 = (qToUint32 buf.sampleRate) / 256 % 256 := rfl

theorem wavByte26 (buf : AudioBuffer) :
    (audioBufferToWav buf).getD 26 0 = (qToUint32 buf.sampleRate) / 65536 % 256 := rfl

theorem wavByte27 (buf : AudioBuffer) :
    (audioBufferToWav buf).getD 27 0 = (qToUint32 buf.sampleRate) / 16777216 % 256 := rfl

theorem wavByte28 (buf : AudioBuffer) :
    (audioBufferToWav buf).getD 28 0 = (qToUint32 (buf.sampleRate * 2)) % 256 := rfl

theorem wavByte29 (buf : AudioBuffer) :
    (audioBufferToWav buf).getD 29 0 = (qToUint32 (buf.sampleRate * 2)) / 256 % 256 := rfl

theorem wavByte30 (buf : AudioBuffer) :
    (audioBufferToWav buf).getD 30 0 = (qToUint32 (buf.sampleRate * 2)) / 65536 % 256 := rfl

theorem wavByte31 (buf : AudioBuffer) :
    (audioBufferToWav buf).getD 31 0 = (qToUint32 (buf.sampleRate * 2)) / 16777216 % 256 := rfl

theorem wavByte32 (buf : AudioBuffer) :
    (audioBufferToWav buf).getD 32 0 = 2 % 256 := rfl

theorem wavByte33 (buf : AudioBuffer) :
    (audioBufferToWav buf).getD 33 0 = 2 / 256 % 256 := rfl

theorem wavByte34 (buf : AudioBuffer) :
    (audioBufferToWav buf).getD 34 0 = 16 % 256 := rfl

theorem wavByte35 (buf : AudioBuffer) :
    (audioBufferToWav buf).getD 35 0 = 16 / 256 % 256 := rfl

theorem wavByte40 (buf : AudioBuffer) :
    (audioBufferToWav buf).getD 40 0 = (buf.data.length * 2) % 256 := rfl

theorem wavByte41 (buf : AudioBuffer) :
    (audioBufferToWav buf).getD 41 0 = (buf.data.length * 2) / 256 % 256 := rfl

theorem wavByte42 (buf : AudioBuffer) :
    (audioBufferToWav buf).getD 42 0 = (buf.data.length * 2) / 65536 % 256 := rfl

theorem wavByte43 (buf : AudioBuffer) :
    (audioBufferToWav buf).getD 43 0 = (buf.data.length * 2) / 16777216 % 256 := rfl

theorem wav_take_riff (buf : AudioBuffer) :
    (audioBufferToWav buf).take 4 = strBytes ("RIFF".data) := rfl

theorem wav_take_wave (buf : AudioBuffer) :
    ((audioBufferToWav buf).drop 8).take 4 = strBytes ("WAVE".data) := rfl

theorem wav_take_fmt (buf : AudioBuffer) :
    ((audioBufferToWav buf).drop 12).take 4 = strBytes ("fmt ".data) := rfl

theorem wav_take_data (buf : AudioBuffer) :
    ((audioBufferToWav buf).drop 36).take 4 = strBytes ("data".data) := rfl

/-- Claim C5: for every single-channel buffer of `N` frames at an integral
sample rate `R` (with `2R` and `2N` below `2^32`, so the 32-bit header
fields do not wrap), the encoded WAV stream is exactly `44 + 2N` bytes: a
44-byte PCM header with `RIFF`/`WAVE`/`fmt `/`data` markers at offsets
0/8/12/36, sub-chunk-1 size 16, format tag 1 at offset 20, channel count 1
at offset 22, sample rate `R` at offset 24, byte rate `2R` at offset 28,
block align 2 at offset 32, bits-per-sample 16 at offset 34, and data
sub-chunk size `2N` at offset 40, followed by the `2N` sample bytes. -/
theorem wav_header_canonical :
    ∀ (buf : AudioBuffer) (R : ℕ),
      buf.sampleRate = (R : ℚ) → 2 * R < 4294967296 →
      2 * buf.data.length < 4294967296 →
      (audioBufferToWav buf).length = 44 + 2 * buf.data.length ∧
      (audioBufferToWav buf).take 4 = strBytes ("RIFF".data) ∧
      ((audioBufferToWav buf).drop 8).take 4 = strBytes ("WAVE".data) ∧
      ((audioBufferToWav buf).drop 12).take 4 = strBytes ("fmt ".data) ∧
      read32 (audioBufferToWav buf) 16 = 16 ∧
      read16 (audioBufferToWav buf) 20 = 1 ∧
      read16 (audioBufferToWav buf) 22 = 1 ∧
      read32 (audioBufferToWav buf) 24 = R ∧
      read32 (audioBufferToWav buf) 28 = 2 * R ∧
      read16 (audioBufferToWav buf) 32 = 2 ∧
      read16 (audioBufferToWav buf) 34 = 16 ∧
      ((audioBufferToWav buf).drop 36).take 4 = strBytes ("data".data) ∧
      read32 (audioBufferToWav buf) 40 = 2 * buf.data.length := by
  intro buf R hrate h2R h2n
  have hq : qToUint32 buf.sampleRate = R % 4294967296 := by
    rw [hrate]
    exact qToUint32_natCast R
  have hq2 : qToUint32 (buf.sampleRate * 2) = (2 * R) % 4294967296 := by
    rw [hrate]
    have hc : ((R : ℚ) * 2) = ((2 * R : ℕ) : ℚ) := by push_cast; ring
    rw [hc]
    exact qToUint32_natCast (2 * R)
  refine ⟨wav_length buf, wav_take_riff buf, wav_take_wave buf, wav_take_fmt buf,
    ?_, ?_, ?_, ?_, ?_, ?_, ?_, wav_take_data buf, ?_⟩
  · exact (read32_bytes (audioBufferToWav buf) 16 16 (wavByte16 buf) (wavByte17 buf)
      (wavByte18 buf) (wavByte19 buf)).trans (by norm_num)
  · exact (read16_bytes (audioBufferToWav buf) 20 1 (wavByte20 buf)
      (wavByte21 buf)).trans (by norm_num)
  · exact (read16_bytes (audioBufferToWav buf) 22 1 (wavByte22 buf)
      (wavByte23 buf)).trans (by norm_num)
  · exact (read32_bytes (audioBufferToWav buf) 24 (qToUint32 buf.sampleRate)
      (wavByte24 buf) (wavByte25 buf) (wavByte26 buf) (wavByte27 buf)).trans
      (by rw [hq]; omega)
  · exact (read32_bytes (audioBufferToWav buf) 28 (qToUint32 (buf.sampleRate * 2))
      (wavByte28 buf) (wavByte29 buf) (wavByte30 buf) (wavByte31 buf)).trans
      (by rw [hq2]; omega)
  · exact (read16_bytes (audioBufferToWav buf) 32 2 (wavByte32 buf)
      (wavByte33 buf)).trans (by norm_num)
  · exact (read16_bytes (audioBufferToWav buf) 34 16 (wavByte34 buf)
      (wavByte35 buf)).trans (by norm_num)
  · exact (read32_bytes (audioBufferToWav buf) 40 (buf.data.length * 2)
      (wavByte40 buf) (wavByte41 buf) (wavByte42 buf) (wavByte43 buf)).trans
      (by omega)

/-- Claim C5 (witness): a 1-second 44100 Hz all-zero buffer encodes to
exactly 44 + 88200 bytes with channel count 1, sample rate 44100 and 16
bits per sample at the documented offsets. -/
theorem wav_header_canonical_witness :
    (audioBufferToWav { sampleRate := 44100, data := List.replicate 44100 0 }).length =
        44 + 88200 ∧
      read16 (audioBufferToWav
        { sampleRate := 44100, data := List.replicate 44100 0 }) 22 = 1 ∧
      read32 (audioBufferToWav
        { sampleRate := 44100, data := List.replicate 44100 0 }) 24 = 44100 ∧
      read16 (audioBufferToWav
        { sampleRate := 44100, data := List.replicate 44100 0 }) 34 = 16 := by
  have hdl : ({ sampleRate := 44100, data := List.replicate 44100 (0 : ℚ) } :
      AudioBuffer).data.length = 44100 := List.length_replicate 44100 0
  obtain ⟨hlen, -, -, -, -, -, h22, h24, -, -, h34, -, -⟩ :=
    wav_header_canonical { sampleRate := 44100, data := List.replicate 44100 0 }
      44100 (by norm_num) (by norm_num) (by rw [hdl]; norm_num)
  refine ⟨?_, h22, h24, h34⟩
  rw [hlen, hdl]

/-- Claim C10: the 32-bit little-endian RIFF chunk-size field at byte
offset 4 of the encoded WAV stream holds `32 + 2N` (for `N` frames, with
`32 + 2N` below `2^32` so the field does not wrap), which is 4 less than
the canonical value `36 + 2N`, the total file size minus 8 of the
44-byte-header file. -/
theorem riff_chunk_size_field :
    ∀ buf : AudioBuffer, 32 + 2 * buf.data.length < 4294967296 →
      read32 (audioBufferToWav buf) 4 = 32 + 2 * buf.data.length ∧
      read32 (audioBufferToWav buf) 4 + 4 = (audioBufferToWav buf).length - 8 ∧
      (audioBufferToWav buf).length - 8 = 36 + 2 * buf.data.length := by
  intro buf hb
  have hlen := wav_length buf
  have hv : read32 (audioBufferToWav buf) 4 = 32 + 2 * buf.data.length :=
    (read32_bytes (audioBufferToWav buf) 4 (32 + buf.data.length * 2)
      (wavByte4 buf) (wavByte5 buf) (wavByte6 buf) (wavByte7 buf)).trans (by omega)
  exact ⟨hv, by rw [hv, hlen]; omega, by rw [hlen]; omega⟩

/-- Claim C10 (witness): a 1-frame buffer gets chunk-size field 34 at
offset 4, which is the total size minus 8, minus 4. -/
theorem riff_chunk_size_field_witness :
    read32 (audioBufferToWav { sampleRate := 1, data := [0] }) 4 = 34 ∧
      read32 (audioBufferToWav { sampleRate := 1, data := [0] }) 4 + 4 =
        (audioBufferToWav { sampleRate := 1, data := [0] }).length - 8 := by
  obtain ⟨h1, h2, -⟩ :=
    riff_chunk_size_field { sampleRate := 1, data := [0] } (by norm_num)
  exact ⟨by rw [h1]; rfl, h2⟩

/-! ### Claim C6: sample clamping and asymmetric 16-bit scaling -/

theorem getD_append_shift (a w : List ℕ) (off : ℕ) :
    (a ++ w).getD (a.length + off) 0 = w.getD off 0 := by
  induction a with
  | nil => simp
  | cons y ys ih =>
    simp only [List.cons_append, List.length_cons]
    rw [show ys.length + 1 + off = (ys.length + off) + 1 from by omega,
      List.getD_cons_succ]
    exact ih

theorem read16_shift (a w : List ℕ) (off : ℕ) :
    read16 (a ++ w) (a.length + off) = read16 w off := by
  unfold read16
  rw [show a.length + off + 1 = a.length + (off + 1) from by omega,
    getD_append_shift, getD_append_shift]

theorem readInt16_shift (a w : List ℕ) (off : ℕ) :
    readInt16 (a ++ w) (a.length + off) = readInt16 w off := by
  unfold readInt16
  rw [read16_shift]

theorem readInt16_i16le (z : ℤ) (rest : List ℕ)
    (h1 : -32768 ≤ z) (h2 : z ≤ 32767) :
    readInt16 (i16le z ++ rest) 0 = z := by
  have h : read16 (i16le z ++ rest) 0 =
      ((z % 65536).toNat % 256 + 256 * ((z % 65536).toNat / 256)) := rfl
  unfold readInt16
  dsimp only
  rw [h]
  by_cases hc : (z % 65536).toNat % 256 + 256 * ((z % 65536).toNat / 256) < 32768
  · rw [if_pos hc]
    omega
  · rw [if_neg hc]
    omega

theorem audioBufferToWav_split (buf : AudioBuffer) :
    audioBufferToWav buf = wavHeader buf ++ buf.data.flatMap sampleBytes := by
  simp only [audioBufferToWav, wavHeader, List.append_assoc]

theorem wavHeader_length (buf : AudioBuffer) : (wavHeader buf).length = 44 := by
  unfold wavHeader
  simp only [List.length_append, strBytes, List.length_map, u32le, u16le,
    List.length_cons, List.length_nil]

theorem flatMap_sampleBytes_split :
    ∀ (l : List ℚ) (i : ℕ), i < l.length →
      ∃ rest, l.flatMap sampleBytes =
        (l.take i).flatMap sampleBytes ++ (sampleBytes (l.getD i 0) ++ rest) ∧
        ((l.take i).flatMap sampleBytes).length = 2 * i := by
  intro l
  induction l with
  | nil =>
    intro i h
    exact absurd h (by simp)
  | cons x xs ih =>
    intro i h
    cases i with
    | zero =>
      exact ⟨xs.flatMap sampleBytes, by simp [List.flatMap_cons], rfl⟩
    | succ i =>
      obtain ⟨rest, he, hl⟩ := ih i (by simpa using h)
      refine ⟨rest, ?_, ?_⟩
      · simp only [List.take_succ_cons, List.flatMap_cons, List.getD_cons_succ,
          List.append_assoc]
        rw [he]
      · simp only [List.take_succ_cons, List.flatMap_cons, List.length_append,
          sampleBytes_length, hl]
        omega

/-- Claim C6: each sample is first clamped to `[-1, 1]` and then scaled to
a signed 16-bit integer asymmetrically — negative values by 32768 and
non-negative values by 32767 (then truncated toward zero) — and this value
is what the encoded WAV stream stores little-endian at byte offset
`44 + 2i` for sample `i`; it always lies in `[-32768, 32767]`, with every
sample at or below -1.0 mapping to -32768 and every sample at or above 1.0
mapping to 32767. -/
theorem wav_sample_scaling :
    ∀ (buf : AudioBuffer) (i : ℕ) (x s : ℚ) (z : ℤ),
      i < buf.data.length →
      x = buf.data.getD i 0 →
      s = max (-1) (min 1 x) →
      z = jsTrunc (if s < 0 then s * 32768 else s * 32767) →
      readInt16 (audioBufferToWav buf) (44 + 2 * i) = z ∧
        -32768 ≤ z ∧ z ≤ 32767 ∧
        (x ≤ -1 → z = -32768) ∧ (1 ≤ x → z = 32767) := by
  intro buf i x s z hi hx hsv hz
  have hs1 : -1 ≤ s := by
    rw [hsv]
    exact le_max_left _ _
  have hs2 : s ≤ 1 := by
    rw [hsv]
    exact max_le (by norm_num) (min_le_left _ _)
  have hzb : -32768 ≤ z ∧ z ≤ 32767 := by
    rw [hz]
    by_cases hneg : s < 0
    · rw [if_pos hneg]
      unfold jsTrunc
      have hq : s * 32768 < 0 := mul_neg_of_neg_of_pos hneg (by norm_num)
      rw [if_pos hq]
      constructor
      · have hb : -(s * 32768) ≤ 32768 := by nlinarith
        have hf : ⌊-(s * 32768)⌋ ≤ ⌊(32768 : ℚ)⌋ := Int.floor_le_floor hb
        have hfl : ⌊(32768 : ℚ)⌋ = 32768 := by norm_num
        omega
      · have hf : 0 ≤ ⌊-(s * 32768)⌋ := Int.floor_nonneg.mpr (by linarith)
        omega
    · rw [if_neg hneg]
      unfold jsTrunc
      have h0 : 0 ≤ s := not_lt.mp hneg
      have hq : ¬ s * 32767 < 0 := not_lt.mpr (by positivity)
      rw [if_neg hq]
      constructor
      · have hf : 0 ≤ ⌊s * 32767⌋ := Int.floor_nonneg.mpr (by positivity)
        omega
      · have hb : s * 32767 ≤ 32767 := by nlinarith
        have hf : ⌊s * 32767⌋ ≤ ⌊(32767 : ℚ)⌋ := Int.floor_le_floor hb
        have hfl : ⌊(32767 : ℚ)⌋ = 32767 := by norm_num
        omega
  obtain ⟨rest, he, hl⟩ := flatMap_sampleBytes_split buf.data i hi
  have hsb : sampleBytes (buf.data.getD i 0) = i16le z := by
    unfold sampleBytes
    dsimp only
    rw [← hx, ← hsv, ← hz]
  have hsp : audioBufferToWav buf =
      (wavHeader buf ++ (buf.data.take i).flatMap sampleBytes) ++
        (sampleBytes (buf.data.getD i 0) ++ rest) := by
    rw [audioBufferToWav_split, he, ← List.append_assoc]
  have hplen : (wavHeader buf ++ (buf.data.take i).flatMap sampleBytes).length =
      44 + 2 * i := by
    rw [List.length_append, wavHeader_length, hl]
  have hshift := readInt16_shift
    (wavHeader buf ++ (buf.data.take i).flatMap sampleBytes)
    (sampleBytes (buf.data.getD i 0) ++ rest) 0
  rw [hplen, Nat.add_zero] at hshift
  refine ⟨?_, hzb.1, hzb.2, ?_, ?_⟩
  · rw [hsp, hshift, hsb]
    exact readInt16_i16le z rest hzb.1 hzb.2
  · intro hle
    have hsx : s = -1 := by
      rw [hsv, min_eq_right (le_trans hle (by norm_num)), max_eq_left hle]
    rw [hz, hsx, if_pos (by norm_num : (-1 : ℚ) < 0)]
    unfold jsTrunc
    rw [if_pos (by norm_num : (-1 : ℚ) * 32768 < 0)]
    rw [show -((-1 : ℚ) * 32768) = 32768 from by norm_num]
    rw [show ⌊(32768 : ℚ)⌋ = 32768 from by norm_num]
  · intro hge
    have hsx : s = 1 := by
      rw [hsv, min_eq_left hge, max_eq_right (by norm_num : (-1 : ℚ) ≤ 1)]
    rw [hz, hsx, if_neg (by norm_num : ¬ (1 : ℚ) < 0)]
    unfold jsTrunc
    rw [if_neg (by norm_num : ¬ (1 : ℚ) * 32767 < 0)]
    rw [show (1 : ℚ) * 32767 = 32767 from by norm_num]
    rw [show ⌊(32767 : ℚ)⌋ = 32767 from by norm_num]

/-- Claim C6 (witness): in a buffer holding the samples -1.0 and 1.0, the
encoded stream stores -32768 at offset 44 and 32767 at offset 46. -/
theorem wav_sample_scaling_witness :
    readInt16 (audioBufferToWav { sampleRate := 1, data := [-1, 1] }) (44 + 2 * 0) =
        -32768 ∧
      readInt16 (audioBufferToWav { sampleRate := 1, data := [-1, 1] }) (44 + 2 * 1) =
        32767 := by
  constructor
  · exact (wav_sample_scaling { sampleRate := 1, data := [-1, 1] } 0 (-1) (-1)
      (-32768) (by norm_num) rfl (by norm_num) (by norm_num [jsTrunc])).1
  · exact (wav_sample_scaling { sampleRate := 1, data := [-1, 1] } 1 1 1
      32767 (by norm_num) rfl (by norm_num) (by norm_num [jsTrunc])).1

/-! ### Claim C9: translation pass-through -/

/-- Claim C9 (amended): `translateSubtitles` performs no mapping of its
own — it returns the collaborator's parsed array unchanged, and fails as a
unit when the response is missing, unparsable or not an array — so the
returned collection preserves `id`, `startTime`, `endTime` and `speaker`
of the inputs exactly when the collaborator's response echoes those
fields.  (The original claim, which promised preservation for every
response, is refuted by `translateSubtitles_passthrough_fails`.) -/
theorem translateSubtitles_passthrough :
    ∀ (subs resp : List Subtitle),
      translateSubtitles subs (some resp) = .ok resp ∧
      translateSubtitles subs none = .error () ∧
      (List.Forall₂ EchoFields subs resp →
        ∀ out, translateSubtitles subs (some resp) = .ok out →
          List.Forall₂ EchoFields subs out) := by
  intro subs resp
  refine ⟨rfl, rfl, ?_⟩
  intro hech out hout
  injection hout with h
  rw [← h]
  exact hech

/-- Claim C9 (witness): with a response echoing the fields of the single
input caption and changing only its text, the returned collection
preserves `id`, `startTime`, `endTime` and `speaker`. -/
theorem translateSubtitles_passthrough_witness :
    translateSubtitles [witA] (some [witA2]) = .ok [witA2] ∧
      List.Forall₂ EchoFields [witA] [witA2] := by
  have hech : List.Forall₂ EchoFields [witA] [witA2] :=
    List.Forall₂.cons ⟨rfl, rfl, rfl, rfl⟩ List.Forall₂.nil
  exact ⟨(translateSubtitles_passthrough [witA] [witA2]).1,
    (translateSubtitles_passthrough [witA] [witA2]).2.2 hech [witA2]
      (translateSubtitles_passthrough [witA] [witA2]).1⟩

/-- Claim C9 (counterexample): the function enforces nothing about the
response fields — a response caption with a different id, different times
and a different speaker is returned unchanged — so the claimed
preservation of `id`/`startTime`/`endTime`/`speaker` fails for such a
collaborator response. -/
theorem translateSubtitles_passthrough_fails :
    translateSubtitles [witA] (some [witB]) = .ok [witB] ∧
      witB.id ≠ witA.id ∧ witB.startTime ≠ witA.startTime ∧
      witB.endTime ≠ witA.endTime ∧ witB.speaker ≠ witA.speaker := by
  refine ⟨rfl, ?_, ?_, ?_, ?_⟩ <;> decide

end SubVision
